import Mathlib

/-!
Verification of the `streaming.frequent` module: a Space-Saving-style
frequent-items sketch.  The development shallowly embeds the two components
of the module:

* `Frequent.select` / `Frequent.qselect` / `Frequent.partition` — the
  Hoare-partition quickselect (`select` in `src/streaming/frequent.py`).
  The Python routine mutates a list in place; we embed the list as a
  `List Int` and index mutation as `List.set`, with out-of-range reads
  returning a default (never exercised on the in-range executions the
  proofs are about).

* `Frequent.Counter` — the frequency counter (`Counter` in
  `src/streaming/frequent.py`), with `update`, `frequency`, `merge`,
  `clear`, `copy` and the eviction sweep `Counter.dec` (`_decrement`).
  The Python dict is embedded as an association list with unique keys.
  The call `random.sample(self.index.values(), self.sample)` draws a
  uniformly random size-`sample` sub-multiset of the tracked counts, in
  random order; we pass the drawn sample in as an explicit argument and
  enforce the contract of `random.sample` (the sample is a permutation of
  a sub-multiset of the values, and `random.sample` itself raises
  `ValueError` when asked for more elements than the population has) as a
  guard, so quantifying over the argument quantifies over every outcome of
  the random sampling.
-/

namespace Frequent

/-- Reference meaning of "fully sorted ascending" used by the spec of
`select`. -/
def sorted (l : List Int) : List Int := List.insertionSort (· ≤ ·) l

/-- Embedding of the in-place swap `seq[i], seq[j] = seq[j], seq[i]`. -/
def lswap (l : List Int) (i j : Nat) : List Int :=
  (l.set i (l.getD j 0)).set j (l.getD i 0)

theorem lswap_length (l : List Int) (i j : Nat) :
    (lswap l i j).length = l.length := by
  simp [lswap]

theorem lswap_getD_of_ne (l : List Int) (i j x : Nat)
    (hxi : x ≠ i) (hxj : x ≠ j) : (lswap l i j).getD x 0 = l.getD x 0 := by
  rcases Nat.lt_or_ge x l.length with hx | hx
  · have hx1 : x < (lswap l i j).length := by rw [lswap_length]; exact hx
    rw [List.getD_eq_getElem _ _ hx1, List.getD_eq_getElem _ _ hx]
    simp only [lswap]
    rw [List.getElem_set_ne (by omega), List.getElem_set_ne (by omega)]
  · rw [List.getD_eq_default _ _ (by rw [lswap_length]; omega),
      List.getD_eq_default _ _ hx]

theorem lswap_getD_snd (l : List Int) (i j : Nat) (hj : j < l.length) :
    (lswap l i j).getD j 0 = l.getD i 0 := by
  have hj1 : j < ((l.set i (l.getD j 0)).set j (l.getD i 0)).length := by
    simpa using hj
  rw [lswap, List.getD_eq_getElem _ _ hj1]
  exact List.getElem_set_self hj1

theorem lswap_getD_fst (l : List Int) (i j : Nat) (hij : i ≠ j)
    (hi : i < l.length) : (lswap l i j).getD i 0 = l.getD j 0 := by
  have hi1 : i < (lswap l i j).length := by rw [lswap_length]; exact hi
  rw [List.getD_eq_getElem _ _ hi1]
  simp only [lswap]
  rw [List.getElem_set_ne (by omega)]
  simp [List.getElem_set]

theorem getD_cons_set_perm (l : List Int) : ∀ (j : Nat) (a : Int),
    j < l.length → (l.getD j 0 :: l.set j a).Perm (a :: l) := by
  induction l with
  | nil => intro j a hj; simp at hj
  | cons b t ih =>
      intro j a hj
      cases j with
      | zero => simpa using List.Perm.swap a b t
      | succ j =>
          have hj' : j < t.length := by simpa using hj
          simp only [List.getD_cons_succ, List.set_cons_succ]
          have s1 : (t.getD j 0 :: b :: t.set j a).Perm
              (b :: t.getD j 0 :: t.set j a) := List.Perm.swap _ _ _
          have s2 : (b :: t.getD j 0 :: t.set j a).Perm (b :: a :: t) :=
            (ih j a hj').cons b
          have s3 : (b :: a :: t).Perm (a :: b :: t) := List.Perm.swap _ _ _
          exact (s1.trans s2).trans s3

theorem lswap_perm (l : List Int) : ∀ (i j : Nat), i < l.length →
    j < l.length → (lswap l i j).Perm l := by
  induction l with
  | nil => intro i j hi _; simp at hi
  | cons b t ih =>
      intro i j hi hj
      cases i with
      | zero =>
          cases j with
          | zero => simp [lswap]
          | succ j =>
              have hj' : j < t.length := by simpa using hj
              simp only [lswap, List.getD_cons_succ, List.getD_cons_zero,
                List.set_cons_zero, List.set_cons_succ]
              exact getD_cons_set_perm t j b hj'
      | succ i =>
          have hi' : i < t.length := by simpa using hi
          cases j with
          | zero =>
              simp only [lswap, List.getD_cons_succ, List.getD_cons_zero,
                List.set_cons_zero, List.set_cons_succ]
              exact getD_cons_set_perm t i b hi'
          | succ j =>
              have hj' : j < t.length := by simpa using hj
              simp only [lswap, List.set_cons_succ, List.getD_cons_succ]
              exact (ih i j hi' hj').cons b

/-- Embedding of the first inner loop of `partition`: starting just above
`i`, advance until the scan hits `hi` or a value not below the pivot `v`.
The Python loop is `i += 1; if i == hi or seq[i] >= v: break`. -/
def scanUp (seq : List Int) (v : Int) (hi : Nat) (i : Nat) (h : i < hi) : Nat :=
  if h2 : i + 1 = hi ∨ v ≤ seq.getD (i + 1) 0 then i + 1
  else scanUp seq v hi (i + 1) (by push_neg at h2; omega)
termination_by hi - i
decreasing_by omega

/-- Embedding of the second inner loop of `partition`: starting just below
`j`, descend until the scan hits `lo` or a value not above the pivot `v`.
The Python loop is `j -= 1; if j == lo or seq[j] <= v: break`. -/
def scanDown (seq : List Int) (v : Int) (lo : Nat) (j : Nat) (h : lo < j) : Nat :=
  if h2 : j - 1 = lo ∨ seq.getD (j - 1) 0 ≤ v then j - 1
  else scanDown seq v lo (j - 1) (by push_neg at h2; omega)
termination_by j
decreasing_by omega

theorem scanUp_spec (seq : List Int) (v : Int) (hi i : Nat) (h : i < hi) :
    i < scanUp seq v hi i h ∧ scanUp seq v hi i h ≤ hi ∧
      (scanUp seq v hi i h = hi ∨ v ≤ seq.getD (scanUp seq v hi i h) 0) ∧
      (∀ x, i < x → x < scanUp seq v hi i h → seq.getD x 0 < v) := by
  induction i, h using scanUp.induct seq v hi with
  | case1 i h h2 =>
      rw [scanUp, dif_pos h2]
      refine ⟨Nat.lt_succ_self i, by omega, h2, ?_⟩
      intro x hx1 hx2; omega
  | case2 i h h2 ih =>
      rw [scanUp, dif_neg h2]
      push_neg at h2
      refine ⟨by omega, ih.2.1, ih.2.2.1, ?_⟩
      intro x hx1 hx2
      rcases Nat.lt_or_ge x (i + 1) with hx | hx
      · have : x = i + 1 ∨ x ≤ i := by omega
        rcases this with h3 | h3
        · omega
        · omega
      · rcases Nat.eq_or_lt_of_le hx with h3 | h3
        · exact h3 ▸ h2.2
        · exact ih.2.2.2 x h3 hx2

theorem scanDown_spec (seq : List Int) (v : Int) (lo j : Nat) (h : lo < j) :
    lo ≤ scanDown seq v lo j h ∧ scanDown seq v lo j h < j ∧
      (scanDown seq v lo j h = lo ∨ seq.getD (scanDown seq v lo j h) 0 ≤ v) ∧
      (∀ x, scanDown seq v lo j h < x → x < j → v < seq.getD x 0) := by
  induction j, h using scanDown.induct seq v lo with
  | case1 j h h2 =>
      rw [scanDown, dif_pos h2]
      refine ⟨by omega, by omega, h2, ?_⟩
      intro x hx1 hx2; omega
  | case2 j h h2 ih =>
      rw [scanDown, dif_neg h2]
      push_neg at h2
      refine ⟨ih.1, by omega, ih.2.2.1, ?_⟩
      intro x hx1 hx2
      rcases Nat.lt_or_ge x (j - 1) with hx | hx
      · exact ih.2.2.2 x hx1 hx
      · have : x = j - 1 := by omega
        subst this
        exact h2.2

theorem scanUp_lt (seq : List Int) (v : Int) (hi i : Nat) (h : i < hi) :
    i < scanUp seq v hi i h ∧ scanUp seq v hi i h ≤ hi :=
  ⟨(scanUp_spec seq v hi i h).1, (scanUp_spec seq v hi i h).2.1⟩

theorem scanDown_bounds (seq : List Int) (v : Int) (lo j : Nat) (h : lo < j) :
    lo ≤ scanDown seq v lo j h ∧ scanDown seq v lo j h < j :=
  ⟨(scanDown_spec seq v lo j h).1, (scanDown_spec seq v lo j h).2.1⟩

/-- Embedding of the outer loop of `partition`.  Each round runs the two
scans; if the cursors crossed, the loop exits and the source performs the
final `seq[lo], seq[j] = seq[j], seq[lo]` and returns `j` (the exit branch
here folds that final swap in); otherwise the source swaps `seq[i]` and
`seq[j]` and repeats. -/
def partitionLoop (seq : List Int) (v : Int) (lo hi i j : Nat)
    (hli : lo ≤ i) (hij : i < hi) (hlj : lo < j) (hjh : j ≤ hi + 1) :
    List Int × Nat :=
  if h : scanDown seq v lo j hlj ≤ scanUp seq v hi i hij then
    (lswap seq lo (scanDown seq v lo j hlj), scanDown seq v lo j hlj)
  else
    partitionLoop (lswap seq (scanUp seq v hi i hij) (scanDown seq v lo j hlj))
      v lo hi (scanUp seq v hi i hij) (scanDown seq v lo j hlj)
      (by have hu := scanUp_lt seq v hi i hij; omega)
      (by have hu := scanUp_lt seq v hi i hij
          have hd := scanDown_bounds seq v lo j hlj; omega)
      (by have hu := scanUp_lt seq v hi i hij; omega)
      (by have hd := scanDown_bounds seq v lo j hlj; omega)
termination_by j - i
decreasing_by
  have hu := scanUp_lt seq v hi i hij
  have hd := scanDown_bounds seq v lo j hlj
  omega

theorem partitionLoop_spec :
    ∀ (seq : List Int) (v : Int) (lo hi i j : Nat) (hli : lo ≤ i)
      (hij : i < hi) (hlj : lo < j) (hjh : j ≤ hi + 1),
      hi < seq.length → seq.getD lo 0 = v →
      (∀ x, lo < x → x ≤ i → seq.getD x 0 ≤ v) →
      (∀ x, j ≤ x → x ≤ hi → v ≤ seq.getD x 0) →
      (partitionLoop seq v lo hi i j hli hij hlj hjh).1.length = seq.length ∧
      lo ≤ (partitionLoop seq v lo hi i j hli hij hlj hjh).2 ∧
      (partitionLoop seq v lo hi i j hli hij hlj hjh).2 ≤ hi ∧
      (partitionLoop seq v lo hi i j hli hij hlj hjh).1.Perm seq ∧
      (∀ x, x < lo → (partitionLoop seq v lo hi i j hli hij hlj hjh).1.getD x 0
        = seq.getD x 0) ∧
      (∀ x, hi < x → (partitionLoop seq v lo hi i j hli hij hlj hjh).1.getD x 0
        = seq.getD x 0) ∧
      (partitionLoop seq v lo hi i j hli hij hlj hjh).1.getD
        (partitionLoop seq v lo hi i j hli hij hlj hjh).2 0 = v ∧
      (∀ x, lo ≤ x → x < (partitionLoop seq v lo hi i j hli hij hlj hjh).2 →
        (partitionLoop seq v lo hi i j hli hij hlj hjh).1.getD x 0 ≤ v) ∧
      (∀ x, (partitionLoop seq v lo hi i j hli hij hlj hjh).2 < x → x ≤ hi →
        v ≤ (partitionLoop seq v lo hi i j hli hij hlj hjh).1.getD x 0) := by
  intro seq v lo hi i j hli hij hlj hjh
  induction seq, v, lo, hi, i, j, hli, hij, hlj, hjh using partitionLoop.induct with
  | case1 seq v lo hi i j hli hij hlj hjh h =>
      intro hsz hv inv1 inv2
      have hu := scanUp_spec seq v hi i hij
      have hd := scanDown_spec seq v lo j hlj
      rw [partitionLoop, dif_pos h]
      dsimp only
      have hjlen : scanDown seq v lo j hlj < seq.length := by omega
      have hlolen : lo < seq.length := by omega
      have hA : ∀ x, lo < x → x ≤ scanDown seq v lo j hlj →
          seq.getD x 0 ≤ v := by
        intro x hx1 hx2
        rcases Nat.lt_or_ge i x with hxi | hxi
        · rcases Nat.lt_or_eq_of_le (show x ≤ scanUp seq v hi i hij by omega)
            with hlt | heq
          · exact le_of_lt (hu.2.2.2 x hxi hlt)
          · have hxj : x = scanDown seq v lo j hlj := by omega
            rcases hd.2.2.1 with hc | hc
            · omega
            · rw [hxj]; exact hc
        · exact inv1 x hx1 hxi
      have hB : ∀ x, scanDown seq v lo j hlj < x → x ≤ hi →
          v ≤ seq.getD x 0 := by
        intro x hx1 hx2
        rcases Nat.lt_or_ge x j with hxj | hxj
        · exact le_of_lt (hd.2.2.2 x hx1 hxj)
        · exact inv2 x hxj hx2
      refine ⟨lswap_length .., hd.1, by omega,
        lswap_perm seq lo _ hlolen hjlen, ?_, ?_, ?_, ?_, ?_⟩
      · intro x hx
        exact lswap_getD_of_ne seq lo _ x (by omega) (by omega)
      · intro x hx
        exact lswap_getD_of_ne seq lo _ x (by omega) (by omega)
      · rw [lswap_getD_snd seq lo _ hjlen]; exact hv
      · intro x hx1 hx2
        rcases Nat.lt_or_eq_of_le hx1 with hlt | heq
        · rw [lswap_getD_of_ne seq lo _ x (by omega) (by omega)]
          exact hA x hlt (by omega)
        · rw [← heq, lswap_getD_fst seq lo _ (by omega) hlolen]
          exact hA (scanDown seq v lo j hlj) (by omega) (le_refl _)
      · intro x hx1 hx2
        rw [lswap_getD_of_ne seq lo _ x (by omega) (by omega)]
        exact hB x hx1 hx2
  | case2 seq v lo hi i j hli hij hlj hjh h ih =>
      intro hsz hv inv1 inv2
      have hu := scanUp_spec seq v hi i hij
      have hd := scanDown_spec seq v lo j hlj
      have hi2len : scanUp seq v hi i hij < seq.length := by omega
      have hj2len : scanDown seq v lo j hlj < seq.length := by omega
      have hlen' :
          (lswap seq (scanUp seq v hi i hij) (scanDown seq v lo j hlj)).length
            = seq.length := lswap_length ..
      have hsz' : hi <
          (lswap seq (scanUp seq v hi i hij) (scanDown seq v lo j hlj)).length := by
        rw [hlen']; exact hsz
      have hv' :
          (lswap seq (scanUp seq v hi i hij) (scanDown seq v lo j hlj)).getD lo 0
            = v := by
        rw [lswap_getD_of_ne seq _ _ lo (by omega) (by omega)]; exact hv
      have inv1' : ∀ x, lo < x → x ≤ scanUp seq v hi i hij →
          (lswap seq (scanUp seq v hi i hij) (scanDown seq v lo j hlj)).getD x 0
            ≤ v := by
        intro x hx1 hx2
        rcases Nat.lt_or_eq_of_le hx2 with hlt | heq
        · rw [lswap_getD_of_ne seq _ _ x (by omega) (by omega)]
          rcases Nat.lt_or_ge i x with hxi | hxi
          · exact le_of_lt (hu.2.2.2 x hxi hlt)
          · exact inv1 x hx1 hxi
        · rw [heq, lswap_getD_fst seq _ _ (by omega) hi2len]
          rcases hd.2.2.1 with hc | hc
          · omega
          · exact hc
      have inv2' : ∀ x, scanDown seq v lo j hlj ≤ x → x ≤ hi →
          v ≤ (lswap seq (scanUp seq v hi i hij)
            (scanDown seq v lo j hlj)).getD x 0 := by
        intro x hx1 hx2
        rcases Nat.lt_or_eq_of_le hx1 with hlt | heq
        · rw [lswap_getD_of_ne seq _ _ x (by omega) (by omega)]
          rcases Nat.lt_or_ge x j with hxj | hxj
          · exact le_of_lt (hd.2.2.2 x hlt hxj)
          · exact inv2 x hxj hx2
        · rw [← heq, lswap_getD_snd seq _ _ hj2len]
          rcases hu.2.2.1 with hc | hc
          · omega
          · exact hc
      obtain ⟨k1, k2, k3, k4, k5, k6, k7, k8, k9⟩ := ih hsz' hv' inv1' inv2'
      rw [partitionLoop, dif_neg h]
      refine ⟨by rw [k1, hlen'], k2, k3,
        k4.trans (lswap_perm seq _ _ hi2len hj2len), ?_, ?_, k7, k8, k9⟩
      · intro x hx
        rw [k5 x hx]
        exact lswap_getD_of_ne seq _ _ x (by omega) (by omega)
      · intro x hx
        rw [k6 x hx]
        exact lswap_getD_of_ne seq _ _ x (by omega) (by omega)

theorem partitionLoop_idx_bounds :
    ∀ (seq : List Int) (v : Int) (lo hi i j : Nat) (hli : lo ≤ i)
      (hij : i < hi) (hlj : lo < j) (hjh : j ≤ hi + 1),
      lo ≤ (partitionLoop seq v lo hi i j hli hij hlj hjh).2 ∧
      (partitionLoop seq v lo hi i j hli hij hlj hjh).2 ≤ hi := by
  intro seq v lo hi i j hli hij hlj hjh
  induction seq, v, lo, hi, i, j, hli, hij, hlj, hjh using partitionLoop.induct with
  | case1 seq v lo hi i j hli hij hlj hjh h =>
      have hd := scanDown_bounds seq v lo j hlj
      rw [partitionLoop, dif_pos h]
      dsimp only
      omega
  | case2 seq v lo hi i j hli hij hlj hjh h ih =>
      rw [partitionLoop, dif_neg h]
      exact ih

/-- Embedding of `partition(seq, lo, hi)` from `select`: Hoare partition of
`seq[lo..hi]` around the pivot `seq[lo]`, returning the modified sequence
and the final pivot position. -/
def partition (seq : List Int) (lo hi : Nat) (hlh : lo < hi) : List Int × Nat :=
  partitionLoop seq (seq.getD lo 0) lo hi lo (hi + 1)
    (le_refl lo) hlh (by omega) (le_refl (hi + 1))

theorem partition_idx_bounds (seq : List Int) (lo hi : Nat) (hlh : lo < hi) :
    lo ≤ (partition seq lo hi hlh).2 ∧ (partition seq lo hi hlh).2 ≤ hi :=
  partitionLoop_idx_bounds ..

theorem partition_spec (seq : List Int) (lo hi : Nat) (hlh : lo < hi)
    (hsz : hi < seq.length) :
    (partition seq lo hi hlh).1.length = seq.length ∧
    (partition seq lo hi hlh).1.Perm seq ∧
    (∀ x, x < lo → (partition seq lo hi hlh).1.getD x 0 = seq.getD x 0) ∧
    (∀ x, hi < x → (partition seq lo hi hlh).1.getD x 0 = seq.getD x 0) ∧
    (∀ x, lo ≤ x → x < (partition seq lo hi hlh).2 →
      (partition seq lo hi hlh).1.getD x 0 ≤
        (partition seq lo hi hlh).1.getD (partition seq lo hi hlh).2 0) ∧
    (∀ x, (partition seq lo hi hlh).2 < x → x ≤ hi →
      (partition seq lo hi hlh).1.getD (partition seq lo hi hlh).2 0 ≤
        (partition seq lo hi hlh).1.getD x 0) := by
  obtain ⟨k1, k2, k3, k4, k5, k6, k7, k8, k9⟩ :=
    partitionLoop_spec seq (seq.getD lo 0) lo hi lo (hi + 1)
      (le_refl lo) hlh (by omega) (le_refl (hi + 1)) hsz rfl
      (by intro x hx1 hx2; omega) (by intro x hx1 hx2; omega)
  refine ⟨k1, k4, k5, k6, ?_, ?_⟩
  · intro x hx1 hx2
    rw [show (partition seq lo hi hlh).1.getD (partition seq lo hi hlh).2 0
      = seq.getD lo 0 from k7]
    exact k8 x hx1 hx2
  · intro x hx1 hx2
    rw [show (partition seq lo hi hlh).1.getD (partition seq lo hi hlh).2 0
      = seq.getD lo 0 from k7]
    exact k9 x hx1 hx2

/-- Embedding of the `qselect` loop inside `select`: narrow the active
range `[lo, hi]` around the target rank `pivot` until the partition lands
on it or the range degenerates. -/
def qselect (seq : List Int) (lo hi pivot : Nat) : Int :=
  if hlh : lo < hi then
    if (partition seq lo hi hlh).2 = pivot then
      (partition seq lo hi hlh).1.getD pivot 0
    else if pivot < (partition seq lo hi hlh).2 then
      qselect (partition seq lo hi hlh).1 lo ((partition seq lo hi hlh).2 - 1) pivot
    else
      qselect (partition seq lo hi hlh).1 ((partition seq lo hi hlh).2 + 1) hi pivot
  else seq.getD pivot 0
termination_by hi - lo
decreasing_by
  · have hb := partition_idx_bounds seq lo hi hlh; omega
  · have hb := partition_idx_bounds seq lo hi hlh; omega

theorem sorted_perm (l : List Int) : (sorted l).Perm l :=
  List.perm_insertionSort _ l

theorem sorted_isSorted (l : List Int) : List.Sorted (· ≤ ·) (sorted l) :=
  List.sorted_insertionSort _ l

theorem sorted_length (l : List Int) : (sorted l).length = l.length :=
  (sorted_perm l).length_eq

theorem sorted_eq_of_perm {l₁ l₂ : List Int} (h : l₁.Perm l₂) :
    sorted l₁ = sorted l₂ :=
  List.eq_of_perm_of_sorted
    ((sorted_perm l₁).trans (h.trans (sorted_perm l₂).symm))
    (sorted_isSorted l₁) (sorted_isSorted l₂)

/-- Order-statistic characterisation: if position `p` dominates everything
before it and is dominated by everything after it, the element at `p`
already sits at its sorted position. -/
theorem sorted_getD_rank (l : List Int) (p : Nat) (hp : p < l.length)
    (h1 : ∀ x, x < p → l.getD x 0 ≤ l.getD p 0)
    (h2 : ∀ y, p < y → y < l.length → l.getD p 0 ≤ l.getD y 0) :
    (sorted l).getD p 0 = l.getD p 0 := by
  have hdecomp : l.take p ++ l.getD p 0 :: l.drop (p + 1) = l := by
    rw [List.getD_eq_getElem l 0 hp, List.getElem_cons_drop l p hp,
      List.take_append_drop]
  have hlenA : (sorted (l.take p)).length = p := by
    rw [sorted_length, List.length_take]; omega
  have hmemA : ∀ a ∈ sorted (l.take p), a ≤ l.getD p 0 := by
    intro a ha
    have ha2 : a ∈ l.take p := (sorted_perm _).mem_iff.mp ha
    obtain ⟨n, hn, rfl⟩ := List.mem_iff_getElem.mp ha2
    have hn2 : n < p := by
      have := List.length_take p l; omega
    rw [List.getElem_take]
    rw [← List.getD_eq_getElem l 0 (by omega)]
    exact h1 n hn2
  have hmemB : ∀ b ∈ sorted (l.drop (p + 1)), l.getD p 0 ≤ b := by
    intro b hb
    have hb2 : b ∈ l.drop (p + 1) := (sorted_perm _).mem_iff.mp hb
    obtain ⟨n, hn, rfl⟩ := List.mem_iff_getElem.mp hb2
    have hn2 : p + 1 + n < l.length := by
      have := List.length_drop (p + 1) l; omega
    rw [List.getElem_drop]
    rw [← List.getD_eq_getElem l 0 hn2]
    exact h2 (p + 1 + n) (by omega) hn2
  have hperm : (sorted l).Perm
      (sorted (l.take p) ++ l.getD p 0 :: sorted (l.drop (p + 1))) := by
    have p1 : (sorted (l.take p) ++ l.getD p 0 :: sorted (l.drop (p + 1))).Perm
        (l.take p ++ l.getD p 0 :: l.drop (p + 1)) :=
      (sorted_perm _).append ((sorted_perm _).cons _)
    exact (sorted_perm l).trans ((hdecomp ▸ p1).symm)
  have hsorted : List.Sorted (· ≤ ·)
      (sorted (l.take p) ++ l.getD p 0 :: sorted (l.drop (p + 1))) := by
    rw [List.Sorted, List.pairwise_append]
    refine ⟨sorted_isSorted _, ?_, ?_⟩
    · rw [List.pairwise_cons]
      exact ⟨hmemB, sorted_isSorted _⟩
    · intro a ha b hb
      have ham := hmemA a ha
      rcases List.mem_cons.mp hb with rfl | hb2
      · exact ham
      · exact le_trans ham (hmemB b hb2)
  have heq : sorted l
      = sorted (l.take p) ++ l.getD p 0 :: sorted (l.drop (p + 1)) :=
    List.eq_of_perm_of_sorted hperm (sorted_isSorted l) hsorted
  rw [heq]
  have hplen : p < (sorted (l.take p) ++ l.getD p 0
      :: sorted (l.drop (p + 1))).length := by
    rw [List.length_append, hlenA]; simp
  rw [List.getD_eq_getElem _ 0 hplen, List.getElem_append]
  rw [dif_neg (by omega)]
  simp [hlenA]

/-- If two lists of equal length are permutations of one another and agree
outside the index range `[lo, hi]`, every value of the first inside the
range occurs in the second inside the range. -/
theorem region_exists (s seq : List Int) (lo hi : Nat)
    (hlen : s.length = seq.length) (hperm : s.Perm seq)
    (hpre : ∀ x, x < lo → s.getD x 0 = seq.getD x 0)
    (hpost : ∀ x, hi < x → s.getD x 0 = seq.getD x 0)
    (hsz : hi < seq.length) :
    ∀ y, lo ≤ y → y ≤ hi →
      ∃ z, lo ≤ z ∧ z ≤ hi ∧ s.getD y 0 = seq.getD z 0 := by
  intro y hy1 hy2
  have hlosz : lo ≤ seq.length := by omega
  have htake : s.take lo = seq.take lo := by
    apply List.ext_getElem
    · rw [List.length_take, List.length_take, hlen]
    · intro n h₁ h₂
      rw [List.getElem_take, List.getElem_take]
      have hn : n < lo := by
        have := List.length_take lo s; omega
      rw [← List.getD_eq_getElem s 0, ← List.getD_eq_getElem seq 0]
      exact hpre n hn
  have hdrop : s.drop (hi + 1) = seq.drop (hi + 1) := by
    apply List.ext_getElem
    · rw [List.length_drop, List.length_drop, hlen]
    · intro n h₁ h₂
      rw [List.getElem_drop, List.getElem_drop]
      rw [← List.getD_eq_getElem s 0, ← List.getD_eq_getElem seq 0]
      exact hpost (hi + 1 + n) (by omega)
  have hsplit : ∀ (l : List Int), l.take lo ++
      ((l.drop lo).take (hi + 1 - lo) ++ l.drop (hi + 1)) = l := by
    intro l
    have h1 : (l.drop lo).drop (hi + 1 - lo) = l.drop (hi + 1) := by
      rw [List.drop_drop]
      congr 1
      omega
    rw [← h1, List.take_append_drop, List.take_append_drop]
  have hpermM : ((s.drop lo).take (hi + 1 - lo)).Perm
      ((seq.drop lo).take (hi + 1 - lo)) := by
    have h0 : (s.take lo ++ ((s.drop lo).take (hi + 1 - lo)
        ++ s.drop (hi + 1))).Perm
        (seq.take lo ++ ((seq.drop lo).take (hi + 1 - lo)
        ++ seq.drop (hi + 1))) := by
      rw [hsplit s, hsplit seq]; exact hperm
    rw [htake] at h0
    have h1 := (List.perm_append_left_iff _).mp h0
    rw [hdrop] at h1
    exact (List.perm_append_right_iff _).mp h1
  have hMs_len : ((s.drop lo).take (hi + 1 - lo)).length = hi + 1 - lo := by
    rw [List.length_take, List.length_drop, hlen]; omega
  have hyv : ((s.drop lo).take (hi + 1 - lo)).getD (y - lo) 0 = s.getD y 0 := by
    have hylt : y - lo < ((s.drop lo).take (hi + 1 - lo)).length := by omega
    rw [List.getD_eq_getElem _ 0 hylt, List.getElem_take, List.getElem_drop]
    rw [← List.getD_eq_getElem s 0]
    congr 1
    omega
  have hmem : s.getD y 0 ∈ (s.drop lo).take (hi + 1 - lo) := by
    rw [← hyv]
    have hylt : y - lo < ((s.drop lo).take (hi + 1 - lo)).length := by omega
    rw [List.getD_eq_getElem _ 0 hylt]
    exact List.getElem_mem hylt
  have hmem2 : s.getD y 0 ∈ (seq.drop lo).take (hi + 1 - lo) :=
    hpermM.mem_iff.mp hmem
  obtain ⟨n, hn, hval⟩ := List.mem_iff_getElem.mp hmem2
  have hn2 : n < hi + 1 - lo := by
    have := List.length_take (hi + 1 - lo) (seq.drop lo); omega
  refine ⟨lo + n, by omega, by omega, ?_⟩
  rw [← hval, List.getElem_take, List.getElem_drop,
    ← List.getD_eq_getElem seq 0]

theorem qselect_spec :
    ∀ (seq : List Int) (lo hi pivot : Nat),
      hi < seq.length → lo ≤ pivot → pivot ≤ hi →
      (∀ x y, x < lo → lo ≤ y → y < seq.length →
        seq.getD x 0 ≤ seq.getD y 0) →
      (∀ x y, x ≤ hi → hi < y → y < seq.length →
        seq.getD x 0 ≤ seq.getD y 0) →
      qselect seq lo hi pivot = (sorted seq).getD pivot 0 := by
  intro seq lo hi pivot
  induction seq, lo, hi, pivot using qselect.induct with
  | case1 seq lo hi hlh =>
      intro hsz hp1 hp2 houtl houtr
      obtain ⟨k1, k2, k3, k4, k5, k6⟩ := partition_spec seq lo hi hlh hsz
      obtain ⟨b1, b2⟩ := partition_idx_bounds seq lo hi hlh
      have R := region_exists (partition seq lo hi hlh).1 seq lo hi k1 k2 k3 k4 hsz
      rw [qselect, dif_pos hlh, if_pos rfl]
      rw [← sorted_eq_of_perm k2]
      have hplen : (partition seq lo hi hlh).2 <
          (partition seq lo hi hlh).1.length := by omega
      rw [sorted_getD_rank _ (partition seq lo hi hlh).2 hplen ?h1 ?h2]
      case h1 =>
        intro x hx
        rcases Nat.lt_or_ge x lo with hxlo | hxlo
        · obtain ⟨z, hz1, hz2, hz3⟩ :=
            R (partition seq lo hi hlh).2 (by omega) (by omega)
          rw [k3 x hxlo, hz3]
          exact houtl x z hxlo hz1 (by omega)
        · exact k5 x hxlo hx
      case h2 =>
        intro y hy1 hy2
        rcases Nat.lt_or_ge hi y with hyhi | hyhi
        · obtain ⟨z, hz1, hz2, hz3⟩ :=
            R (partition seq lo hi hlh).2 (by omega) (by omega)
          rw [k4 y hyhi, hz3]
          exact houtr z y (by omega) hyhi (by omega)
        · exact k6 y (by omega) hyhi
  | case2 seq lo hi pivot hlh h hlt ih =>
      intro hsz hp1 hp2 houtl houtr
      obtain ⟨k1, k2, k3, k4, k5, k6⟩ := partition_spec seq lo hi hlh hsz
      obtain ⟨b1, b2⟩ := partition_idx_bounds seq lo hi hlh
      have R := region_exists (partition seq lo hi hlh).1 seq lo hi k1 k2 k3 k4 hsz
      rw [qselect, dif_pos hlh, if_neg h, if_pos hlt]
      rw [← sorted_eq_of_perm k2]
      apply ih
      · omega
      · exact hp1
      · omega
      · intro x y hx hy1 hy2
        rw [k3 x hx]
        rcases Nat.lt_or_ge hi y with hyhi | hyhi
        · rw [k4 y hyhi]
          exact houtl x y hx (by omega) (by omega)
        · obtain ⟨z, hz1, hz2, hz3⟩ := R y hy1 hyhi
          rw [hz3]
          exact houtl x z hx hz1 (by omega)
      · intro x y hx hy1 hy2
        have hyidx : (partition seq lo hi hlh).2 ≤ y := by omega
        have hxidx : x < (partition seq lo hi hlh).2 := by omega
        rcases Nat.lt_or_ge hi y with hyhi | hyhi
        · -- y beyond the partitioned range: transfer through the original
          rw [k4 y hyhi]
          rcases Nat.lt_or_ge x lo with hxlo | hxlo
          · rw [k3 x hxlo]
            exact houtr x y (by omega) hyhi (by omega)
          · obtain ⟨z, hz1, hz2, hz3⟩ := R x hxlo (by omega)
            rw [hz3]
            exact houtr z y hz2 hyhi (by omega)
        · -- y inside the range, at or right of the pivot position
          rcases Nat.lt_or_ge x lo with hxlo | hxlo
          · obtain ⟨z, hz1, hz2, hz3⟩ := R y (by omega) hyhi
            rw [k3 x hxlo, hz3]
            exact houtl x z hxlo hz1 (by omega)
          · have hxv := k5 x hxlo hxidx
            rcases Nat.eq_or_lt_of_le hyidx with hyeq | hylt
            · rw [← hyeq]
              exact hxv
            · exact le_trans hxv (k6 y hylt hyhi)
  | case3 seq lo hi pivot hlh h hge ih =>
      intro hsz hp1 hp2 houtl houtr
      obtain ⟨k1, k2, k3, k4, k5, k6⟩ := partition_spec seq lo hi hlh hsz
      obtain ⟨b1, b2⟩ := partition_idx_bounds seq lo hi hlh
      have R := region_exists (partition seq lo hi hlh).1 seq lo hi k1 k2 k3 k4 hsz
      have hidxp : (partition seq lo hi hlh).2 < pivot := by omega
      rw [qselect, dif_pos hlh, if_neg h, if_neg hge]
      rw [← sorted_eq_of_perm k2]
      apply ih
      · omega
      · omega
      · exact hp2
      · intro x y hx hy1 hy2
        have hxidx : x ≤ (partition seq lo hi hlh).2 := by omega
        rcases Nat.lt_or_ge x lo with hxlo | hxlo
        · rw [k3 x hxlo]
          rcases Nat.lt_or_ge hi y with hyhi | hyhi
          · rw [k4 y hyhi]
            exact houtl x y hxlo (by omega) (by omega)
          · obtain ⟨z, hz1, hz2, hz3⟩ := R y (by omega) hyhi
            rw [hz3]
            exact houtl x z hxlo hz1 (by omega)
        · have hxv : (partition seq lo hi hlh).1.getD x 0 ≤
              (partition seq lo hi hlh).1.getD (partition seq lo hi hlh).2 0 := by
            rcases Nat.eq_or_lt_of_le hxidx with hxeq | hxlt
            · rw [hxeq]
            · exact k5 x hxlo hxlt
          rcases Nat.lt_or_ge hi y with hyhi | hyhi
          · obtain ⟨z, hz1, hz2, hz3⟩ := R x hxlo (by omega)
            rw [k4 y hyhi, hz3]
            exact houtr z y hz2 hyhi (by omega)
          · exact le_trans hxv (k6 y (by omega) hyhi)
      · intro x y hx hy1 hy2
        rw [k4 y hy1]
        rcases Nat.lt_or_ge x lo with hxlo | hxlo
        · rw [k3 x hxlo]
          exact houtr x y hx hy1 (by omega)
        · obtain ⟨z, hz1, hz2, hz3⟩ := R x hxlo hx
          rw [hz3]
          exact houtr z y hz2 hy1 (by omega)
  | case4 seq lo hi pivot hlh =>
      intro hsz hp1 hp2 houtl houtr
      rw [qselect, dif_neg hlh]
      have hpl : pivot < seq.length := by omega
      rw [sorted_getD_rank seq pivot hpl ?hh1 ?hh2]
      case hh1 =>
        intro x hx
        exact houtl x pivot (by omega) (by omega) hpl
      case hh2 =>
        intro y hy1 hy2
        exact houtr pivot y (by omega) (by omega) hy2

/-- Embedding of `select(sequence, k)`: validate `k` against the sequence
length (raising `ValueError('k value out of range')` exactly when `k < 0`
or `k >= len(sequence)`), then run quickselect on the whole range. -/
def select (sequence : List Int) (k : Int) : Except String Int :=
  if k < 0 ∨ (sequence.length : Int) ≤ k then
    Except.error "k value out of range"
  else
    Except.ok (qselect sequence 0 (sequence.length - 1) k.toNat)

/-- C2: for every sequence `s` and every integer `k`, `select s k` returns
the `k`-th element (0-indexed) of the ascending sort of `s` when
`0 ≤ k < length s`, and fails with the range error otherwise; in
particular it fails on the empty sequence and returns the sole element of
a singleton at `k = 0`. -/
theorem select_spec (s : List Int) (k : Int) :
    select s k = if 0 ≤ k ∧ k < (s.length : Int)
      then Except.ok ((sorted s).getD k.toNat 0)
      else Except.error "k value out of range" := by
  unfold select
  by_cases hc : k < 0 ∨ (s.length : Int) ≤ k
  · rw [if_pos hc, if_neg (by omega)]
  · rw [if_neg hc, if_pos (by push_neg at hc; omega)]
    push_neg at hc
    congr 1
    apply qselect_spec
    · omega
    · exact Nat.zero_le _
    · omega
    · intro x y hx hy1 hy2; omega
    · intro x y hx hy1 hy2; omega

/-- Embedding of the `Counter` object's state: `size`/`sample`/`order` are
the construction parameters `k`/`sample`/`order`, `length`/`offset` the
running totals, and `index` the key-to-count dict (association list with
unique keys). -/
structure Counter (K : Type) where
  size : Int
  sample : Int
  order : Int
  length : Int
  offset : Int
  index : List (K × Int)
deriving DecidableEq

variable {K : Type} [DecidableEq K]

/-- Embedding of the dict read `self.index.get(key)` / `key in self.index`. -/
def getv : List (K × Int) → K → Option Int
  | [], _ => none
  | (k1, v) :: rest, key => if k1 = key then some v else getv rest key

/-- Embedding of the dict write `self.index[key] = val`. -/
def setv : List (K × Int) → K → Int → List (K × Int)
  | [], key, val => [(key, val)]
  | (k1, v) :: rest, key, val =>
      if k1 = key then (key, val) :: rest else (k1, v) :: setv rest key val

/-- Embedding of `Counter.__init__(k, sample, order)`.  The module is
Python 2, so the default `order = sample / 2` is floor division
(`Int.fdiv`). -/
def Counter.init (k : Int) (sampleArg orderArg : Option Int) :
    Except String (Counter K) :=
  let sample := sampleArg.getD (min k 1024)
  let order := orderArg.getD (Int.fdiv sample 2)
  if sample < 0 ∨ k < sample then Except.error "sample rate out of range"
  else if order < 0 ∨ sample ≤ order then Except.error "order out of range"
  else Except.ok ⟨k, sample, order, 0, 0, []⟩

/-- Embedding of `Counter._decrement`.  The argument `samp` stands for the
outcome of `random.sample(self.index.values(), self.sample)`; the guard
enforces exactly the contract of that call (a random permutation of a
size-`sample` sub-multiset of the values; `random.sample` raises when the
population is too small).  The sweep subtracts the selected threshold from
every count, dropping the keys whose count does not exceed it, and adds
the threshold to the offset. -/
def decrement (c : Counter K) (samp : List Int) :
    Except String (Counter K × Int) :=
  if samp.Subperm (c.index.map Prod.snd) ∧ (samp.length : Int) = c.sample then
    match select samp c.order with
    | Except.error e => Except.error e
    | Except.ok threshold =>
        Except.ok
          ({ c with
              index := c.index.filterMap fun p =>
                if p.2 ≤ threshold then none else some (p.1, p.2 - threshold),
              offset := c.offset + threshold },
            threshold)
  else Except.error "invalid sample"

/-- Embedding of `Counter.update(key, val)`.  `samp` is the sampling
outcome handed to `_decrement` in case the rebalance is triggered.  The
`assert len(self.index) < self.size` before the post-rebalance insert is
modelled as the `"assertion failed"` error branch. -/
def update (c : Counter K) (key : K) (val : Int) (samp : List Int) :
    Except String (Counter K) :=
  if val = 0 then Except.ok c
  else if val < 0 then Except.error "value out of range"
  else
    match getv c.index key with
    | some old =>
        Except.ok { c with length := c.length + val,
                           index := setv c.index key (old + val) }
    | none =>
        if (c.index.length : Int) < c.size then
          Except.ok { c with length := c.length + val,
                             index := setv c.index key val }
        else
          match decrement { c with length := c.length + val } samp with
          | Except.error e => Except.error e
          | Except.ok (c2, thr) =>
              if thr < val then
                if (c2.index.length : Int) < c2.size then
                  Except.ok { c2 with index := setv c2.index key (val - thr) }
                else Except.error "assertion failed"
              else Except.ok c2

/-- Embedding of `Counter.frequency(key)`: the pair
`(table.get(key, 0), table.get(key, 0) + offset)`. -/
def frequency (c : Counter K) (key : K) : Int × Int :=
  ((getv c.index key).getD 0, (getv c.index key).getD 0 + c.offset)

/-- Replay of `other`'s table entries through `self.update` inside
`Counter.merge`; the `n`-th replayed update consumes the `n`-th sampling
outcome of `samps`. -/
def foldUpdates : Counter K → List (K × Int) → List (List Int) →
    Except String (Counter K)
  | c, [], _ => Except.ok c
  | c, (key, val) :: rest, samps =>
      match update c key val (samps.headD []) with
      | Except.error e => Except.error e
      | Except.ok c2 => foldUpdates c2 rest samps.tail

/-- Embedding of `Counter.merge(other)`: replay `other`'s entries, then
overwrite `length` with the exact pre-merge sum and add `other`'s offset. -/
def merge (c other : Counter K) (samps : List (List Int)) :
    Except String (Counter K) :=
  match foldUpdates c other.index samps with
  | Except.error e => Except.error e
  | Except.ok c2 =>
      Except.ok { c2 with length := c.length + other.length,
                          offset := c2.offset + other.offset }

/-- Embedding of `Counter.clear()`. -/
def clear (c : Counter K) : Counter K :=
  { c with index := [], length := 0, offset := 0 }

/-- Embedding of `dict.update`: insert the entries of the second dict into
the first, one at a time. -/
def dictUpdate : List (K × Int) → List (K × Int) → List (K × Int)
  | d, [] => d
  | d, (key, val) :: rest => dictUpdate (setv d key val) rest

/-- Embedding of `Counter.copy()`: build a fresh counter through the
(validating) constructor, copy the scalars, and populate the fresh dict
from the old one via `dict.update`. -/
def copy (c : Counter K) : Except String (Counter K) :=
  match Counter.init c.size (some c.sample) (some c.order) with
  | Except.error e => Except.error e
  | Except.ok base =>
      Except.ok { base with length := c.length, offset := c.offset,
                            index := dictUpdate base.index c.index }

/-- Well-formedness invariant of a counter state: validated construction
parameters, a dict with unique keys and strictly positive counts, at most
`size` tracked keys, and a non-negative offset. -/
def WF (c : Counter K) : Prop :=
  0 ≤ c.order ∧ c.order < c.sample ∧ c.sample ≤ c.size ∧
  (c.index.map Prod.fst).Nodup ∧ (∀ p ∈ c.index, 1 ≤ p.2) ∧
  (c.index.length : Int) ≤ c.size ∧ 0 ≤ c.offset

/-- Frequency-bound invariant relating a counter to the true frequency
function `f` of the stream it has summarised. -/
def Inv (c : Counter K) (f : K → Int) : Prop :=
  ∀ key, (getv c.index key).getD 0 ≤ f key ∧
    f key ≤ (getv c.index key).getD 0 + c.offset

/-- Sum of the weights a list of replayed `(key, value)` updates carries
for a given key. -/
def entriesSum : List (K × Int) → K → Int
  | [], _ => 0
  | (k1, v) :: rest, key => (if key = k1 then v else 0) + entriesSum rest key

/-- Reachable counter states, paired with the true frequency function of
the combined stream fed into them.  Every constructor is an operation of
the source; the sampling outcomes are universally quantified through the
`samp` arguments of the operations. -/
inductive Reach : Counter K → (K → Int) → Prop where
  | init : ∀ (k : Int) (s o : Option Int) (c : Counter K),
      Counter.init k s o = Except.ok c → Reach c (fun _ => 0)
  | step : ∀ (c : Counter K) (f : K → Int) (key : K) (val : Int)
      (samp : List Int) (c2 : Counter K), Reach c f →
      update c key val samp = Except.ok c2 →
      Reach c2 (fun x => if x = key then f x + val else f x)
  | mrg : ∀ (c d : Counter K) (f g : K → Int) (samps : List (List Int))
      (m : Counter K), Reach c f → Reach d g →
      merge c d samps = Except.ok m → Reach m (fun x => f x + g x)
  | clr : ∀ (c : Counter K) (f : K → Int), Reach c f →
      Reach (clear c) (fun _ => 0)

theorem getv_setv_self (l : List (K × Int)) (key : K) (val : Int) :
    getv (setv l key val) key = some val := by
  induction l with
  | nil => simp [setv, getv]
  | cons p rest ih =>
      obtain ⟨k1, v⟩ := p
      by_cases h : k1 = key
      · subst h; simp [setv, getv]
      · simp [setv, getv, h, ih]

theorem getv_setv_ne (l : List (K × Int)) (key key2 : K) (val : Int)
    (h : key2 ≠ key) : getv (setv l key val) key2 = getv l key2 := by
  have hne : key ≠ key2 := Ne.symm h
  induction l with
  | nil => simp [setv, getv, hne]
  | cons p rest ih =>
      obtain ⟨k1, v⟩ := p
      by_cases h1 : k1 = key
      · subst h1
        simp [setv, getv, hne]
      · simp [setv, getv, h1, ih]

theorem getv_eq_none_of_not_mem (l : List (K × Int)) (key : K)
    (h : key ∉ l.map Prod.fst) : getv l key = none := by
  induction l with
  | nil => simp [getv]
  | cons p rest ih =>
      obtain ⟨k1, v⟩ := p
      simp only [List.map_cons, List.mem_cons] at h
      push_neg at h
      have h1 : k1 ≠ key := Ne.symm h.1
      simp [getv, h1, ih h.2]

theorem not_mem_of_getv_none (l : List (K × Int)) (key : K)
    (h : getv l key = none) : key ∉ l.map Prod.fst := by
  induction l with
  | nil => simp
  | cons p rest ih =>
      obtain ⟨k1, v⟩ := p
      by_cases h1 : k1 = key
      · subst h1; simp [getv] at h
      · simp only [getv, if_neg h1] at h
        simp [Ne.symm h1, ih h]

theorem getv_mem (l : List (K × Int)) (key : K) (v : Int)
    (h : getv l key = some v) : (key, v) ∈ l := by
  induction l with
  | nil => simp [getv] at h
  | cons p rest ih =>
      obtain ⟨k1, v1⟩ := p
      simp only [getv] at h
      by_cases h1 : k1 = key
      · rw [if_pos h1] at h
        injection h with h2
        subst h1
        subst h2
        exact List.mem_cons_self ..
      · rw [if_neg h1] at h
        exact List.mem_cons_of_mem _ (ih h)

theorem length_setv_present (l : List (K × Int)) (key : K) (val : Int)
    (h : (getv l key).isSome) : (setv l key val).length = l.length := by
  induction l with
  | nil => simp [getv] at h
  | cons p rest ih =>
      obtain ⟨k1, v⟩ := p
      by_cases h1 : k1 = key
      · subst h1; simp [setv]
      · simp only [getv, if_neg h1] at h
        simp [setv, h1, ih h]

theorem length_setv_absent (l : List (K × Int)) (key : K) (val : Int)
    (h : getv l key = none) : (setv l key val).length = l.length + 1 := by
  induction l with
  | nil => simp [setv]
  | cons p rest ih =>
      obtain ⟨k1, v⟩ := p
      by_cases h1 : k1 = key
      · subst h1; simp [getv] at h
      · simp only [getv, if_neg h1] at h
        simp [setv, h1, ih h]

theorem map_fst_setv_present (l : List (K × Int)) (key : K) (val : Int)
    (h : (getv l key).isSome) :
    (setv l key val).map Prod.fst = l.map Prod.fst := by
  induction l with
  | nil => simp [getv] at h
  | cons p rest ih =>
      obtain ⟨k1, v⟩ := p
      by_cases h1 : k1 = key
      · subst h1; simp [setv]
      · simp only [getv, if_neg h1] at h
        simp [setv, h1, ih h]

theorem map_fst_setv_absent (l : List (K × Int)) (key : K) (val : Int)
    (h : getv l key = none) :
    (setv l key val).map Prod.fst = l.map Prod.fst ++ [key] := by
  induction l with
  | nil => simp [setv]
  | cons p rest ih =>
      obtain ⟨k1, v⟩ := p
      by_cases h1 : k1 = key
      · subst h1; simp [getv] at h
      · simp only [getv, if_neg h1] at h
        simp [setv, h1, ih h]

theorem nodup_setv (l : List (K × Int)) (key : K) (val : Int)
    (h : (l.map Prod.fst).Nodup) :
    ((setv l key val).map Prod.fst).Nodup := by
  cases hg : getv l key with
  | none =>
      rw [map_fst_setv_absent l key val hg]
      have hnm := not_mem_of_getv_none l key hg
      simp [List.nodup_append, h, hnm]
  | some v =>
      rw [map_fst_setv_present l key val (by rw [hg]; rfl)]
      exact h

theorem mem_setv (l : List (K × Int)) (key : K) (val : Int) (p : K × Int)
    (h : p ∈ setv l key val) : p = (key, val) ∨ p ∈ l := by
  induction l with
  | nil => simp [setv] at h; simp [h]
  | cons q rest ih =>
      obtain ⟨k1, v⟩ := q
      by_cases h1 : k1 = key
      · simp only [setv, if_pos h1, List.mem_cons] at h
        rcases h with h | h
        · exact Or.inl h
        · exact Or.inr (List.mem_cons_of_mem _ h)
      · simp only [setv, if_neg h1, List.mem_cons] at h
        rcases h with h | h
        · exact Or.inr (by simp [h])
        · rcases ih h with h2 | h2
          · exact Or.inl h2
          · exact Or.inr (List.mem_cons_of_mem _ h2)

theorem map_fst_filterMap_dec (l : List (K × Int)) (t : Int) :
    ((l.filterMap fun p => if p.2 ≤ t then none else some (p.1, p.2 - t)).map
      Prod.fst).Sublist (l.map Prod.fst) := by
  induction l with
  | nil => simp
  | cons p rest ih =>
      obtain ⟨k1, v⟩ := p
      by_cases h : v ≤ t
      · simp only [List.filterMap_cons, if_pos h, List.map_cons]
        exact ih.cons k1
      · simp only [List.filterMap_cons, if_neg h, List.map_cons]
        exact ih.cons₂ k1

theorem getv_filterMap_dec (l : List (K × Int)) (t : Int)
    (hnd : (l.map Prod.fst).Nodup) (key : K) :
    getv (l.filterMap fun p => if p.2 ≤ t then none else some (p.1, p.2 - t))
        key
      = (getv l key).bind (fun v => if v ≤ t then none else some (v - t)) := by
  induction l with
  | nil => simp [getv]
  | cons p rest ih =>
      obtain ⟨k1, v⟩ := p
      simp only [List.map_cons, List.nodup_cons] at hnd
      by_cases h1 : k1 = key
      · subst h1
        by_cases h : v ≤ t
        · simp only [List.filterMap_cons, if_pos h, getv, if_pos rfl]
          rw [ih hnd.2, getv_eq_none_of_not_mem rest k1 hnd.1]
          simp [h]
        · simp only [List.filterMap_cons, if_neg h, getv, if_pos rfl]
          simp [h]
      · by_cases h : v ≤ t
        · simp only [List.filterMap_cons, if_pos h]
          rw [ih hnd.2]
          simp only [getv, if_neg h1]
        · simp only [List.filterMap_cons, if_neg h]
          simp only [getv, if_neg h1]
          exact ih hnd.2

theorem length_filterMap_lt {α β : Type} (l : List α) (f : α → Option β)
    (x : α) (hx : x ∈ l) (hfx : f x = none) :
    (l.filterMap f).length < l.length := by
  induction l with
  | nil => simp at hx
  | cons a rest ih =>
      rcases List.mem_cons.mp hx with rfl | hx2
      · simp only [List.filterMap_cons, hfx, List.length_cons]
        exact Nat.lt_succ_of_le (List.length_filterMap_le ..)
      · cases hfa : f a with
        | none =>
            simp only [List.filterMap_cons, hfa, List.length_cons]
            exact Nat.lt_succ_of_lt (ih hx2)
        | some b =>
            simp only [List.filterMap_cons, hfa, List.length_cons]
            exact Nat.succ_lt_succ (ih hx2)

theorem select_ok_facts (samp : List Int) (o t : Int)
    (h : select samp o = Except.ok t) :
    t ∈ samp ∧ 0 ≤ o ∧ o < (samp.length : Int) := by
  have hs := select_spec samp o
  rw [h] at hs
  by_cases hc : 0 ≤ o ∧ o < (samp.length : Int)
  · rw [if_pos hc] at hs
    injection hs with hs
    refine ⟨?_, hc.1, hc.2⟩
    have hlt : o.toNat < (sorted samp).length := by
      rw [sorted_length]; omega
    rw [hs, List.getD_eq_getElem _ 0 hlt]
    exact (sorted_perm samp).subset (List.getElem_mem hlt)
  · rw [if_neg hc] at hs
    exact Except.noConfusion hs

theorem select_error_msg (samp : List Int) (o : Int) (e : String)
    (h : select samp o = Except.error e) : e = "k value out of range" := by
  have hs := select_spec samp o
  rw [h] at hs
  by_cases hc : 0 ≤ o ∧ o < (samp.length : Int)
  · rw [if_pos hc] at hs
    exact Except.noConfusion hs
  · rw [if_neg hc] at hs
    injection hs with hs

theorem decrement_ok (c : Counter K) (samp : List Int) (c2 : Counter K)
    (t : Int) (hnd : (c.index.map Prod.fst).Nodup)
    (h : decrement c samp = Except.ok (c2, t)) :
    t ∈ c.index.map Prod.snd ∧
    c2.size = c.size ∧ c2.sample = c.sample ∧ c2.order = c.order ∧
    c2.length = c.length ∧ c2.offset = c.offset + t ∧
    c2.index.length < c.index.length ∧
    (c2.index.map Prod.fst).Nodup ∧
    (∀ p ∈ c2.index, ∃ q ∈ c.index, p.1 = q.1 ∧ p.2 = q.2 - t ∧ t < q.2) ∧
    (∀ key, getv c2.index key
      = (getv c.index key).bind fun v =>
          if v ≤ t then none else some (v - t)) := by
  rw [decrement] at h
  by_cases hg : samp.Subperm (c.index.map Prod.snd) ∧
      (samp.length : Int) = c.sample
  · rw [if_pos hg] at h
    cases hsel : select samp c.order with
    | error e => rw [hsel] at h; exact Except.noConfusion h
    | ok threshold =>
        rw [hsel] at h
        injection h with h
        rw [Prod.mk.injEq] at h
        obtain ⟨h1, h2⟩ := h
        subst h1
        subst h2
        have hmem : threshold ∈ c.index.map Prod.snd :=
          hg.1.subset (select_ok_facts samp c.order threshold hsel).1
        refine ⟨hmem, rfl, rfl, rfl, rfl, rfl, ?_, ?_, ?_, ?_⟩
        · obtain ⟨q, hq, hqt⟩ := List.mem_map.mp hmem
          exact length_filterMap_lt c.index _ q hq (by simp [hqt])
        · exact hnd.sublist (map_fst_filterMap_dec c.index threshold)
        · intro p hp
          obtain ⟨q, hq, hfq⟩ := List.mem_filterMap.mp hp
          by_cases hqt : q.2 ≤ threshold
          · rw [if_pos hqt] at hfq
            exact Option.noConfusion hfq
          · rw [if_neg hqt] at hfq
            injection hfq with hfq
            refine ⟨q, hq, ?_, ?_, by omega⟩
            · rw [← hfq]
            · rw [← hfq]
        · intro key
          exact getv_filterMap_dec c.index threshold hnd key
  · rw [if_neg hg] at h
    exact Except.noConfusion h

theorem decrement_inv (c : Counter K) (f : K → Int) (c3 : Counter K) (t : Int)
    (hpos : ∀ p ∈ c.index, 1 ≤ p.2) (ht0 : 0 ≤ t)
    (hoff : c3.offset = c.offset + t)
    (hget : ∀ k2, getv c3.index k2
      = (getv c.index k2).bind fun v => if v ≤ t then none else some (v - t))
    (hf : Inv c f) : Inv c3 f := by
  intro x
  obtain ⟨hl, hu⟩ := hf x
  rw [hget x, hoff]
  cases hgx : getv c.index x with
  | none =>
      rw [hgx] at hl hu
      simp only [Option.getD_none] at hl hu
      simp only [Option.none_bind, Option.getD_none]
      exact ⟨hl, by omega⟩
  | some v =>
      have hv1 : 1 ≤ v := hpos _ (getv_mem _ _ _ hgx)
      rw [hgx] at hl hu
      simp only [Option.getD_some] at hl hu
      by_cases hvt : v ≤ t
      · simp only [Option.some_bind, if_pos hvt, Option.getD_none]
        exact ⟨by omega, by omega⟩
      · simp only [Option.some_bind, if_neg hvt, Option.getD_some]
        exact ⟨by omega, by omega⟩

theorem update_master (c : Counter K) (key : K) (val : Int) (samp : List Int)
    (c2 : Counter K) (hWF : WF c) (h : update c key val samp = Except.ok c2) :
    WF c2 ∧ c2.size = c.size ∧ c2.sample = c.sample ∧ c2.order = c.order ∧
    c2.length = c.length + val ∧ c.offset ≤ c2.offset ∧
    (c2.offset = c.offset ∨ ∃ c3 t,
      decrement { c with length := c.length + val } samp = Except.ok (c3, t) ∧
      1 ≤ t ∧ c2.offset = c.offset + t) ∧
    (∀ f, Inv c f → Inv c2 (fun x => if x = key then f x + val else f x)) := by
  obtain ⟨w1, w2, w3, w4, w5, w6, w7⟩ := hWF
  by_cases h0 : val = 0
  · subst h0
    rw [update, if_pos rfl] at h
    injection h with h
    subst h
    refine ⟨⟨w1, w2, w3, w4, w5, w6, w7⟩, rfl, rfl, rfl, by omega, le_refl _,
      Or.inl rfl, ?_⟩
    intro f hf x
    obtain ⟨hl, hu⟩ := hf x
    dsimp only
    by_cases hx : x = key
    · rw [if_pos hx]
      exact ⟨by omega, by omega⟩
    · rw [if_neg hx]
      exact ⟨hl, hu⟩
  by_cases hneg : val < 0
  · rw [update, if_neg h0, if_pos hneg] at h
    exact Except.noConfusion h
  have hval1 : 1 ≤ val := by omega
  rw [update, if_neg h0, if_neg hneg] at h
  cases hgv : getv c.index key with
  | some old =>
      rw [hgv] at h
      injection h with h
      subst h
      have hold1 : 1 ≤ old := w5 (key, old) (getv_mem _ _ _ hgv)
      refine ⟨⟨w1, w2, w3, nodup_setv _ _ _ w4, ?_, ?_, w7⟩, rfl, rfl, rfl,
        rfl, le_refl _, Or.inl rfl, ?_⟩
      · intro p hp
        rcases mem_setv _ _ _ p hp with rfl | hp2
        · simp; omega
        · exact w5 p hp2
      · rw [length_setv_present _ _ _ (by rw [hgv]; rfl)]
        exact w6
      · intro f hf x
        obtain ⟨hl, hu⟩ := hf x
        dsimp only
        by_cases hx : x = key
        · subst hx
          rw [hgv] at hl hu
          simp only [Option.getD_some] at hl hu
          rw [if_pos rfl, getv_setv_self]
          simp only [Option.getD_some]
          exact ⟨by omega, by omega⟩
        · rw [if_neg hx, getv_setv_ne _ _ _ _ hx]
          exact ⟨hl, hu⟩
  | none =>
      rw [hgv] at h
      by_cases hroom : (c.index.length : Int) < c.size
      · rw [if_pos hroom] at h
        injection h with h
        subst h
        refine ⟨⟨w1, w2, w3, nodup_setv _ _ _ w4, ?_, ?_, w7⟩, rfl, rfl, rfl,
          rfl, le_refl _, Or.inl rfl, ?_⟩
        · intro p hp
          rcases mem_setv _ _ _ p hp with rfl | hp2
          · simpa using hval1
          · exact w5 p hp2
        · rw [length_setv_absent _ _ _ hgv]
          push_cast
          omega
        · intro f hf x
          obtain ⟨hl, hu⟩ := hf x
          dsimp only
          by_cases hx : x = key
          · subst hx
            rw [hgv] at hl hu
            simp only [Option.getD_none] at hl hu
            rw [if_pos rfl, getv_setv_self]
            simp only [Option.getD_some]
            exact ⟨by omega, by omega⟩
          · rw [if_neg hx, getv_setv_ne _ _ _ _ hx]
            exact ⟨hl, hu⟩
      · rw [if_neg hroom] at h
        cases hdec : decrement { c with length := c.length + val } samp with
        | error e => rw [hdec] at h; exact Except.noConfusion h
        | ok pr =>
            obtain ⟨c3, t⟩ := pr
            rw [hdec] at h
            obtain ⟨d1, d2, d3, d4, d5, d6, d7, d8, d9, d10⟩ :=
              decrement_ok { c with length := c.length + val } samp c3 t w4 hdec
            have d1' : t ∈ c.index.map Prod.snd := d1
            have d2' : c3.size = c.size := d2
            have d3' : c3.sample = c.sample := d3
            have d4' : c3.order = c.order := d4
            have d5' : c3.length = c.length + val := d5
            have d6' : c3.offset = c.offset + t := d6
            have d7' : c3.index.length < c.index.length := d7
            have d9' : ∀ p ∈ c3.index, ∃ q ∈ c.index,
                p.1 = q.1 ∧ p.2 = q.2 - t ∧ t < q.2 := d9
            have d10' : ∀ k2, getv c3.index k2
                = (getv c.index k2).bind fun v =>
                    if v ≤ t then none else some (v - t) := d10
            have ht1 : 1 ≤ t := by
              obtain ⟨q, hq, hqt⟩ := List.mem_map.mp d1'
              have := w5 q hq
              omega
            have hpos3 : ∀ p ∈ c3.index, 1 ≤ p.2 := by
              intro p hp
              obtain ⟨q, hq, hq1, hq2, hq3⟩ := d9' p hp
              omega
            have hIv3 : ∀ f, Inv c f → Inv c3 f := by
              intro f hf
              exact decrement_inv c f c3 t w5 (by omega) d6' d10' hf
            have hg3 : getv c3.index key = none := by
              rw [d10' key, hgv]
              rfl
            dsimp only at h
            by_cases hthr : t < val
            · rw [if_pos hthr] at h
              have hassert : (c3.index.length : Int) < c3.size := by
                rw [d2']
                omega
              rw [if_pos hassert] at h
              injection h with h
              subst h
              dsimp only
              refine ⟨⟨by rw [d4']; exact w1, by rw [d4', d3']; exact w2,
                by rw [d3', d2']; exact w3, nodup_setv _ _ _ d8, ?_, ?_, ?_⟩,
                d2', d3', d4', d5', by omega,
                Or.inr ⟨c3, t, rfl, ht1, d6'⟩, ?_⟩
              · intro p hp
                rcases mem_setv _ _ _ p hp with rfl | hp2
                · simp; omega
                · exact hpos3 p hp2
              · rw [length_setv_absent _ _ _ hg3, d2']
                push_cast
                omega
              · rw [d6']
                omega
              · intro f hf x
                obtain ⟨hl3, hu3⟩ := hIv3 f hf x
                obtain ⟨hl, hu⟩ := hf x
                dsimp only
                by_cases hx : x = key
                · subst hx
                  rw [hgv] at hl hu
                  simp only [Option.getD_none] at hl hu
                  rw [if_pos rfl, getv_setv_self]
                  simp only [Option.getD_some]
                  rw [d6']
                  exact ⟨by omega, by omega⟩
                · rw [if_neg hx, getv_setv_ne _ _ _ _ hx]
                  exact ⟨hl3, hu3⟩
            · rw [if_neg hthr] at h
              injection h with h
              subst h
              refine ⟨⟨by rw [d4']; exact w1, by rw [d4', d3']; exact w2,
                by rw [d3', d2']; exact w3, d8, hpos3, by rw [d2']; omega,
                by rw [d6']; omega⟩,
                d2', d3', d4', d5', by omega,
                Or.inr ⟨c3, t, rfl, ht1, d6'⟩, ?_⟩
              intro f hf x
              obtain ⟨hl3, hu3⟩ := hIv3 f hf x
              obtain ⟨hl, hu⟩ := hf x
              dsimp only
              by_cases hx : x = key
              · subst hx
                rw [hgv] at hl hu
                simp only [Option.getD_none] at hl hu
                rw [if_pos rfl, hg3, d6']
                simp only [Option.getD_none]
                exact ⟨by omega, by omega⟩
              · rw [if_neg hx]
                exact ⟨hl3, hu3⟩

theorem init_ok (k : Int) (s o : Option Int) (c : Counter K)
    (h : Counter.init k s o = Except.ok c) :
    WF c ∧ c.length = 0 ∧ c.offset = 0 ∧ c.index = [] ∧ c.size = k := by
  simp only [Counter.init] at h
  split at h
  · exact Except.noConfusion h
  · split at h
    · exact Except.noConfusion h
    · injection h with h
      subst h
      rename_i h1 h2
      push_neg at h1 h2
      refine ⟨⟨h2.1, h2.2, h1.2, by simp, by simp, ?_, le_refl 0⟩,
        rfl, rfl, rfl, rfl⟩
      have := h1.1
      simp only [List.length_nil, Int.natCast_zero]
      omega

theorem entriesSum_eq_getv (l : List (K × Int))
    (hnd : (l.map Prod.fst).Nodup) (x : K) :
    entriesSum l x = (getv l x).getD 0 := by
  induction l with
  | nil => simp [entriesSum, getv]
  | cons p rest ih =>
      obtain ⟨k1, v⟩ := p
      simp only [List.map_cons, List.nodup_cons] at hnd
      by_cases hx : x = k1
      · subst hx
        rw [entriesSum, if_pos rfl]
        rw [getv_eq_none_of_not_mem rest x hnd.1] at ih
        simp only [Option.getD_none] at ih
        simp [getv, ih hnd.2]
      · rw [entriesSum, if_neg hx, ih hnd.2]
        have hx2 : ¬ k1 = x := fun h2 => hx h2.symm
        simp [getv, hx2]

theorem foldUpdates_master (entries : List (K × Int)) :
    ∀ (c : Counter K) (samps : List (List Int)) (c2 : Counter K),
      WF c → foldUpdates c entries samps = Except.ok c2 →
      WF c2 ∧ c2.size = c.size ∧ c2.sample = c.sample ∧ c2.order = c.order ∧
      c.offset ≤ c2.offset ∧
      (∀ f, Inv c f → Inv c2 (fun x => f x + entriesSum entries x)) := by
  induction entries with
  | nil =>
      intro c samps c2 hWF h
      rw [foldUpdates] at h
      injection h with h
      subst h
      refine ⟨hWF, rfl, rfl, rfl, le_refl _, ?_⟩
      intro f hf x
      obtain ⟨hl, hu⟩ := hf x
      simp only [entriesSum]
      exact ⟨by omega, by omega⟩
  | cons e rest ih =>
      obtain ⟨key, val⟩ := e
      intro c samps c2 hWF h
      rw [foldUpdates] at h
      cases hup : update c key val (samps.headD []) with
      | error e2 => rw [hup] at h; exact Except.noConfusion h
      | ok cmid =>
          rw [hup] at h
          dsimp only at h
          obtain ⟨m1, m2, m3, m4, m5, m6, m7, m8⟩ :=
            update_master c key val (samps.headD []) cmid hWF hup
          obtain ⟨F1, F2, F3, F4, F5, F6⟩ := ih cmid samps.tail c2 m1 h
          refine ⟨F1, by rw [F2, m2], by rw [F3, m3], by rw [F4, m4],
            by omega, ?_⟩
          intro f hf
          have h2 := F6 _ (m8 f hf)
          intro x
          have h3 := h2 x
          dsimp only at h3
          obtain ⟨h3l, h3u⟩ := h3
          simp only [entriesSum]
          by_cases hx : x = key
          · rw [if_pos hx] at h3l h3u ⊢
            exact ⟨by omega, by omega⟩
          · rw [if_neg hx] at h3l h3u ⊢
            exact ⟨by omega, by omega⟩

theorem merge_master (c d : Counter K) (samps : List (List Int))
    (m : Counter K) (hWFc : WF c) (hWFd : WF d)
    (h : merge c d samps = Except.ok m) :
    WF m ∧ ∀ f g, Inv c f → Inv d g → Inv m (fun x => f x + g x) := by
  rw [merge] at h
  cases hfu : foldUpdates c d.index samps with
  | error e => rw [hfu] at h; exact Except.noConfusion h
  | ok c2 =>
      rw [hfu] at h
      dsimp only at h
      injection h with h
      subst h
      obtain ⟨F1, F2, F3, F4, F5, F6⟩ :=
        foldUpdates_master d.index c samps c2 hWFc hfu
      obtain ⟨a1, a2, a3, a4, a5, a6, a7⟩ := F1
      obtain ⟨b1, b2, b3, b4, b5, b6, b7⟩ := hWFc
      have hdoff : 0 ≤ d.offset := hWFd.2.2.2.2.2.2
      refine ⟨⟨a1, a2, a3, a4, a5, a6, by dsimp only; omega⟩, ?_⟩
      intro f g hf hg x
      have h2 := F6 f hf x
      dsimp only at h2
      rw [entriesSum_eq_getv d.index hWFd.2.2.2.1 x] at h2
      obtain ⟨h2l, h2u⟩ := h2
      obtain ⟨hgl, hgu⟩ := hg x
      dsimp only
      exact ⟨by omega, by omega⟩

theorem reach_master : ∀ (c : Counter K) (f : K → Int),
    Reach c f → WF c ∧ Inv c f := by
  intro c f h
  induction h with
  | init k s o c hinit =>
      obtain ⟨hWF, h1, h2, h3, h4⟩ := init_ok k s o c hinit
      refine ⟨hWF, ?_⟩
      intro x
      rw [h3, h2]
      simp [getv]
  | step c f key val samp c2 hr hup ih =>
      obtain ⟨hWF, hInv⟩ := ih
      obtain ⟨m1, _, _, _, _, _, _, m8⟩ := update_master c key val samp c2 hWF hup
      exact ⟨m1, m8 f hInv⟩
  | mrg c d f g samps m hrc hrd hm ihc ihd =>
      obtain ⟨hWFc, hInvc⟩ := ihc
      obtain ⟨hWFd, hInvd⟩ := ihd
      obtain ⟨hWFm, hI⟩ := merge_master c d samps m hWFc hWFd hm
      exact ⟨hWFm, hI f g hInvc hInvd⟩
  | clr c f hr ih =>
      obtain ⟨⟨b1, b2, b3, b4, b5, b6, b7⟩, _⟩ := ih
      refine ⟨⟨b1, b2, b3, by simp [clear], by simp [clear], ?_, ?_⟩, ?_⟩
      · simp only [clear, List.length_nil, Int.natCast_zero]
        omega
      · simp [clear]
      · intro x
        simp [clear, getv]

theorem decrement_error_msg (c : Counter K) (samp : List Int) (e : String)
    (h : decrement c samp = Except.error e) :
    e = "invalid sample" ∨ e = "k value out of range" := by
  rw [decrement] at h
  by_cases hg : samp.Subperm (c.index.map Prod.snd) ∧
      (samp.length : Int) = c.sample
  · rw [if_pos hg] at h
    cases hsel : select samp c.order with
    | error e2 =>
        rw [hsel] at h
        injection h with h
        exact Or.inr (h ▸ select_error_msg samp c.order e2 hsel)
    | ok threshold =>
        rw [hsel] at h
        exact Except.noConfusion h
  · rw [if_neg hg] at h
    injection h with h
    exact Or.inl h.symm

theorem update_no_assert (c : Counter K) (hWF : WF c) (key : K) (val : Int)
    (samp : List Int) :
    update c key val samp ≠ Except.error "assertion failed" := by
  obtain ⟨w1, w2, w3, w4, w5, w6, w7⟩ := hWF
  intro h
  by_cases h0 : val = 0
  · subst h0
    rw [update, if_pos rfl] at h
    exact Except.noConfusion h
  by_cases hneg : val < 0
  · rw [update, if_neg h0, if_pos hneg] at h
    injection h with h
    exact absurd h (by decide)
  rw [update, if_neg h0, if_neg hneg] at h
  cases hgv : getv c.index key with
  | some old =>
      rw [hgv] at h
      exact Except.noConfusion h
  | none =>
      rw [hgv] at h
      by_cases hroom : (c.index.length : Int) < c.size
      · rw [if_pos hroom] at h
        exact Except.noConfusion h
      · rw [if_neg hroom] at h
        cases hdec : decrement { c with length := c.length + val } samp with
        | error e =>
            rw [hdec] at h
            dsimp only at h
            injection h with h
            rcases decrement_error_msg _ samp e hdec with rfl | rfl
            · exact absurd h (by decide)
            · exact absurd h (by decide)
        | ok pr =>
            obtain ⟨c3, t⟩ := pr
            rw [hdec] at h
            dsimp only at h
            obtain ⟨_, d2, _, _, _, _, d7, _, _, _⟩ :=
              decrement_ok { c with length := c.length + val } samp c3 t w4 hdec
            have d2' : c3.size = c.size := d2
            have d7' : c3.index.length < c.index.length := d7
            by_cases hthr : t < val
            · rw [if_pos hthr] at h
              have hassert : (c3.index.length : Int) < c3.size := by
                rw [d2']
                omega
              rw [if_pos hassert] at h
              exact Except.noConfusion h
            · rw [if_neg hthr] at h
              exact Except.noConfusion h

theorem reach0 :
    Reach (⟨1, 1, 0, 0, 0, []⟩ : Counter Nat) (fun _ => 0) :=
  Reach.init 1 none none _ rfl

theorem reach1 :
    Reach (⟨1, 1, 0, 1, 0, [(7, 1)]⟩ : Counter Nat)
      (fun x => if x = 7 then (0 : Int) + 1 else 0) :=
  Reach.step _ _ 7 1 [] _ reach0 rfl

theorem sel_single : select [1] 0 = Except.ok 1 := by
  simp [select, qselect]

theorem dec_c1 :
    decrement (⟨1, 1, 0, 3, 0, [(7, 1)]⟩ : Counter Nat) [1]
      = Except.ok (⟨1, 1, 0, 3, 1, []⟩, 1) := by
  rw [decrement, if_pos ⟨List.Subperm.refl _, rfl⟩, sel_single]
  rfl

theorem dec_c1' :
    decrement (⟨1, 1, 0, 1, 0, [(7, 1)]⟩ : Counter Nat) [1]
      = Except.ok (⟨1, 1, 0, 1, 1, []⟩, 1) := by
  rw [decrement, if_pos ⟨List.Subperm.refl _, rfl⟩, sel_single]
  rfl

theorem upd_c1 :
    update (⟨1, 1, 0, 1, 0, [(7, 1)]⟩ : Counter Nat) 8 2 [1]
      = Except.ok (⟨1, 1, 0, 3, 1, [(8, 1)]⟩ : Counter Nat) := by
  rw [update]
  norm_num
  rw [show (getv [((7 : Nat), (1 : Int))] 8) = none from rfl, dec_c1]
  rfl

theorem reach2 :
    Reach (⟨1, 1, 0, 3, 1, [(8, 1)]⟩ : Counter Nat)
      (fun x => if x = 8 then (if x = 7 then (0 : Int) + 1 else 0) + 2
        else (if x = 7 then (0 : Int) + 1 else 0)) :=
  Reach.step _ _ 8 2 [1] _ reach1 upd_c1

/-- C1: for every sequence of update and merge operations (over every
outcome of the random sampling) and every key, tracked or not,
`frequency key` returns a pair `(lower, upper)` with
`lower ≤ true frequency ≤ upper`, and `upper - lower` equals the
counter's current offset. -/
theorem frequency_bounds (c : Counter K) (f : K → Int) (hr : Reach c f)
    (key : K) :
    (frequency c key).1 ≤ f key ∧ f key ≤ (frequency c key).2 ∧
    (frequency c key).2 - (frequency c key).1 = c.offset := by
  obtain ⟨hWF, hInv⟩ := reach_master c f hr
  obtain ⟨hl, hu⟩ := hInv key
  refine ⟨hl, hu, ?_⟩
  dsimp only [frequency]
  omega

/-- Witness for C1 at the concrete one-update trace `update 7 1`. -/
theorem frequency_bounds_witness :
    ((frequency (⟨1, 1, 0, 1, 0, [(7, 1)]⟩ : Counter Nat) 7).1
      ≤ (fun x : Nat => if x = 7 then (0 : Int) + 1 else 0) 7) ∧
    ((fun x : Nat => if x = 7 then (0 : Int) + 1 else 0) 7
      ≤ (frequency (⟨1, 1, 0, 1, 0, [(7, 1)]⟩ : Counter Nat) 7).2) ∧
    (frequency (⟨1, 1, 0, 1, 0, [(7, 1)]⟩ : Counter Nat) 7).2
      - (frequency (⟨1, 1, 0, 1, 0, [(7, 1)]⟩ : Counter Nat) 7).1
      = (⟨1, 1, 0, 1, 0, [(7, 1)]⟩ : Counter Nat).offset :=
  frequency_bounds _ _ reach1 7

/-- C2: for every sequence `s` and integer `k`, `select s k` returns the
0-indexed `k`-th smallest element (the `k`-th entry of the ascending
sort) when `0 ≤ k < length s`, and fails with the range error when `k`
is out of that range or `s` is empty; a length-1 sequence returns its
sole element for `k = 0` as the in-range instance `s = [x], k = 0`. -/
theorem select_correct (s : List Int) (k : Int) :
    select s k = if 0 ≤ k ∧ k < (s.length : Int)
      then Except.ok ((sorted s).getD k.toNat 0)
      else Except.error "k value out of range" :=
  select_spec s k

/-- C3: every reachable counter tracks at most `size` keys, and the
assertion before the post-rebalance insert in `update` never fails (no
call of `update` on a reachable state can return the assertion error). -/
theorem capacity_invariant (c : Counter K) (f : K → Int) (hr : Reach c f) :
    (c.index.length : Int) ≤ c.size ∧
    ∀ (key : K) (val : Int) (samp : List Int),
      update c key val samp ≠ Except.error "assertion failed" := by
  obtain ⟨hWF, _⟩ := reach_master c f hr
  exact ⟨hWF.2.2.2.2.2.1, fun key val samp => update_no_assert c hWF key val samp⟩

/-- Witness for C3 at a concrete reachable state and a rebalancing call. -/
theorem capacity_invariant_witness :
    (((⟨1, 1, 0, 1, 0, [(7, 1)]⟩ : Counter Nat).index.length : Int)
      ≤ (⟨1, 1, 0, 1, 0, [(7, 1)]⟩ : Counter Nat).size) ∧
    update (⟨1, 1, 0, 1, 0, [(7, 1)]⟩ : Counter Nat) 8 2 [1]
      ≠ Except.error "assertion failed" :=
  ⟨(capacity_invariant _ _ reach1).1, (capacity_invariant _ _ reach1).2 8 2 [1]⟩

/-- C4: after `merge`, the length is exactly the sum of both lengths
before the merge, whatever the replayed updates accumulated; the offset
is the replay's resulting offset plus the other counter's offset. -/
theorem merge_length_conservation (c d : Counter K) (samps : List (List Int))
    (m : Counter K) (h : merge c d samps = Except.ok m) :
    m.length = c.length + d.length ∧
    ∃ r, foldUpdates c d.index samps = Except.ok r ∧
      m.offset = r.offset + d.offset := by
  rw [merge] at h
  cases hfu : foldUpdates c d.index samps with
  | error e => rw [hfu] at h; exact Except.noConfusion h
  | ok c2 =>
      rw [hfu] at h
      dsimp only at h
      injection h with h
      subst h
      exact ⟨rfl, c2, rfl, rfl⟩

/-- Witness for C4 at a concrete merge of two one-key counters. -/
theorem merge_length_conservation_witness :
    ((⟨2, 1, 0, 7, 0, [(1, 3), (2, 4)]⟩ : Counter Nat).length
      = (⟨2, 1, 0, 3, 0, [(1, 3)]⟩ : Counter Nat).length
        + (⟨2, 1, 0, 4, 0, [(2, 4)]⟩ : Counter Nat).length) ∧
    ∃ r, foldUpdates (⟨2, 1, 0, 3, 0, [(1, 3)]⟩ : Counter Nat)
        (⟨2, 1, 0, 4, 0, [(2, 4)]⟩ : Counter Nat).index [] = Except.ok r ∧
      (⟨2, 1, 0, 7, 0, [(1, 3), (2, 4)]⟩ : Counter Nat).offset
        = r.offset + (⟨2, 1, 0, 4, 0, [(2, 4)]⟩ : Counter Nat).offset :=
  merge_length_conservation ⟨2, 1, 0, 3, 0, [(1, 3)]⟩
    ⟨2, 1, 0, 4, 0, [(2, 4)]⟩ [] ⟨2, 1, 0, 7, 0, [(1, 3), (2, 4)]⟩ rfl

/-- C5 counterexample: the claim says the offset never decreases under
any operation, but `clear` resets a strictly positive offset to zero on
this concrete reachable counter. -/
theorem clear_decreases_offset_cx :
    ∃ (c : Counter Nat) (f : Nat → Int),
      Reach c f ∧ (clear c).offset < c.offset :=
  ⟨_, _, reach2, by decide⟩

/-- C5 (amended): under `update` and `merge` the offset never decreases;
`update` changes it only through an eviction sweep (by exactly the sweep
threshold, which is at least 1); `merge` adds the other counter's offset
on top of the replay's sweeps; `clear` resets the offset to zero. -/
theorem offset_monotone_amended (c : Counter K) (f : K → Int)
    (hr : Reach c f) :
    (∀ (key : K) (val : Int) (samp : List Int) (c2 : Counter K),
      update c key val samp = Except.ok c2 →
      c.offset ≤ c2.offset ∧
      (c2.offset = c.offset ∨ ∃ c3 t,
        decrement { c with length := c.length + val } samp = Except.ok (c3, t)
        ∧ 1 ≤ t ∧ c2.offset = c.offset + t)) ∧
    (∀ (d : Counter K) (samps : List (List Int)) (m : Counter K),
      merge c d samps = Except.ok m →
      ∃ r, foldUpdates c d.index samps = Except.ok r ∧ c.offset ≤ r.offset ∧
        m.offset = r.offset + d.offset) ∧
    (clear c).offset = 0 := by
  obtain ⟨hWF, _⟩ := reach_master c f hr
  refine ⟨?_, ?_, rfl⟩
  · intro key val samp c2 hu
    obtain ⟨_, _, _, _, _, m6, m7, _⟩ := update_master c key val samp c2 hWF hu
    exact ⟨m6, m7⟩
  · intro d samps m hm
    rw [merge] at hm
    cases hfu : foldUpdates c d.index samps with
    | error e => rw [hfu] at hm; exact Except.noConfusion hm
    | ok c2 =>
        rw [hfu] at hm
        dsimp only at hm
        injection hm with hm
        subst hm
        obtain ⟨_, _, _, _, F5, _⟩ :=
          foldUpdates_master d.index c samps c2 hWF hfu
        exact ⟨c2, rfl, F5, rfl⟩

/-- Witness for the amended C5 at a concrete rebalancing update. -/
theorem offset_monotone_amended_witness :
    ((⟨1, 1, 0, 1, 0, [(7, 1)]⟩ : Counter Nat).offset
      ≤ (⟨1, 1, 0, 3, 1, [(8, 1)]⟩ : Counter Nat).offset ∧
      ((⟨1, 1, 0, 3, 1, [(8, 1)]⟩ : Counter Nat).offset
          = (⟨1, 1, 0, 1, 0, [(7, 1)]⟩ : Counter Nat).offset ∨
        ∃ c3 t, decrement (⟨1, 1, 0, 1 + 2, 0, [(7, 1)]⟩ : Counter Nat) [1]
            = Except.ok (c3, t) ∧ 1 ≤ t ∧
          (⟨1, 1, 0, 3, 1, [(8, 1)]⟩ : Counter Nat).offset
            = (⟨1, 1, 0, 1, 0, [(7, 1)]⟩ : Counter Nat).offset + t)) ∧
    (clear (⟨1, 1, 0, 1, 0, [(7, 1)]⟩ : Counter Nat)).offset = 0 :=
  ⟨(offset_monotone_amended _ _ reach1).1 8 2 [1] _ upd_c1,
    (offset_monotone_amended _ _ reach1).2.2⟩

/-- C6: updating with a non-positive value leaves the whole state
unchanged; it fails with the value-range error exactly when the value is
negative, and is a plain no-op at zero. -/
theorem update_nonpositive (c : Counter K) (key : K) (val : Int)
    (samp : List Int) (h : val ≤ 0) :
    update c key val samp
      = if val < 0 then Except.error "value out of range" else Except.ok c := by
  by_cases h0 : val = 0
  · subst h0
    rw [update, if_pos rfl, if_neg (by omega)]
  · have hneg : val < 0 := by omega
    rw [update, if_neg h0, if_pos hneg, if_pos hneg]

/-- Witness for C6: a zero-weight update is a no-op and a negative-weight
update raises the value-range error. -/
theorem update_nonpositive_witness :
    update (⟨1, 1, 0, 1, 0, [(7, 1)]⟩ : Counter Nat) 3 0 []
      = Except.ok (⟨1, 1, 0, 1, 0, [(7, 1)]⟩ : Counter Nat) ∧
    update (⟨1, 1, 0, 1, 0, [(7, 1)]⟩ : Counter Nat) 3 (-1) []
      = Except.error "value out of range" :=
  ⟨(update_nonpositive _ 3 0 [] (by decide)).trans (if_neg (by decide)),
    (update_nonpositive _ 3 (-1) [] (by decide)).trans (if_pos (by decide))⟩

/-- C10: every tracked count in a reachable counter is at least 1; hence
every successful eviction sweep selects a threshold of at least 1,
strictly increases the offset, and evicts at least one key. -/
theorem positive_counts (c : Counter K) (f : K → Int) (hr : Reach c f) :
    (∀ p ∈ c.index, 1 ≤ p.2) ∧
    ∀ (samp : List Int) (c3 : Counter K) (t : Int),
      decrement c samp = Except.ok (c3, t) →
      1 ≤ t ∧ c.offset < c3.offset ∧ c3.index.length < c.index.length := by
  obtain ⟨hWF, _⟩ := reach_master c f hr
  obtain ⟨w1, w2, w3, w4, w5, w6, w7⟩ := hWF
  refine ⟨w5, ?_⟩
  intro samp c3 t hdec
  obtain ⟨d1, _, _, _, _, d6, d7, _, _, _⟩ := decrement_ok c samp c3 t w4 hdec
  have ht : 1 ≤ t := by
    obtain ⟨q, hq, hqt⟩ := List.mem_map.mp d1
    have := w5 q hq
    omega
  exact ⟨ht, by omega, d7⟩

/-- Witness for C10 at a concrete reachable state and sweep. -/
theorem positive_counts_witness :
    (1 : Int) ≤ ((7, 1) : Nat × Int).2 ∧
    (1 ≤ (1 : Int) ∧
      (⟨1, 1, 0, 1, 0, [(7, 1)]⟩ : Counter Nat).offset
        < (⟨1, 1, 0, 1, 1, []⟩ : Counter Nat).offset ∧
      ((⟨1, 1, 0, 1, 1, []⟩ : Counter Nat)).index.length
        < (⟨1, 1, 0, 1, 0, [(7, 1)]⟩ : Counter Nat).index.length) :=
  ⟨(positive_counts _ _ reach1).1 (7, 1) (by decide),
    (positive_counts _ _ reach1).2 [1] _ 1 dec_c1'⟩

theorem run_exact (us : List (K × Int)) :
    ∀ (c c2 : Counter K) (g : K → Int),
      (c.index.map Prod.fst).Nodup →
      c.offset = 0 →
      (∀ key, (getv c.index key).getD 0 = g key) →
      (((c.index.map Prod.fst).toFinset
        ∪ (us.map Prod.fst).toFinset).card : Int) ≤ c.size →
      foldUpdates c us [] = Except.ok c2 →
      c2.offset = 0 ∧
        ∀ key, (getv c2.index key).getD 0 = g key + entriesSum us key := by
  induction us with
  | nil =>
      intro c c2 g hnd hoff hg hcard h
      rw [foldUpdates] at h
      injection h with h
      subst h
      refine ⟨hoff, ?_⟩
      intro key
      rw [hg key]
      simp [entriesSum]
  | cons e rest ih =>
      obtain ⟨k1, v⟩ := e
      intro c c2 g hnd hoff hg hcard h
      rw [foldUpdates] at h
      simp only [List.headD_nil, List.tail_nil] at h
      cases hup : update c k1 v [] with
      | error e2 => rw [hup] at h; exact Except.noConfusion h
      | ok cmid =>
          rw [hup] at h
          dsimp only at h
          by_cases h0 : v = 0
          · subst h0
            rw [update, if_pos rfl] at hup
            injection hup with hup
            subst hup
            have hcard2 : (((c.index.map Prod.fst).toFinset
                ∪ (rest.map Prod.fst).toFinset).card : Int) ≤ c.size := by
              have hsub : (c.index.map Prod.fst).toFinset
                  ∪ (rest.map Prod.fst).toFinset
                  ⊆ (c.index.map Prod.fst).toFinset
                  ∪ (((k1, (0 : Int)) :: rest).map Prod.fst).toFinset := by
                simp only [List.map_cons, List.toFinset_cons]
                intro x hx
                rcases Finset.mem_union.mp hx with hx | hx
                · exact Finset.mem_union_left _ hx
                · exact Finset.mem_union_right _ (Finset.mem_insert_of_mem hx)
              have := Finset.card_le_card hsub
              omega
            obtain ⟨ho2, hg2⟩ := ih c c2 g hnd hoff hg hcard2 h
            refine ⟨ho2, ?_⟩
            intro key
            rw [hg2 key, entriesSum]
            have : (if key = k1 then (0 : Int) else 0) = 0 := by
              by_cases hk : key = k1 <;> simp [hk]
            omega
          by_cases hneg : v < 0
          · rw [update, if_neg h0, if_pos hneg] at hup
            exact Except.noConfusion hup
          rw [update, if_neg h0, if_neg hneg] at hup
          cases hgv : getv c.index k1 with
          | some old =>
              rw [hgv] at hup
              injection hup with hup
              subst hup
              have hg1 : old = g k1 := by
                have := hg k1
                rw [hgv] at this
                simpa using this
              have hcard2 : ((((setv c.index k1 (old + v)).map
                  Prod.fst).toFinset
                  ∪ (rest.map Prod.fst).toFinset).card : Int) ≤ c.size := by
                rw [map_fst_setv_present c.index k1 _ (by rw [hgv]; rfl)]
                have hsub : (c.index.map Prod.fst).toFinset
                    ∪ (rest.map Prod.fst).toFinset
                    ⊆ (c.index.map Prod.fst).toFinset
                    ∪ (((k1, v) :: rest).map Prod.fst).toFinset := by
                  simp only [List.map_cons, List.toFinset_cons]
                  intro x hx
                  rcases Finset.mem_union.mp hx with hx | hx
                  · exact Finset.mem_union_left _ hx
                  · exact Finset.mem_union_right _ (Finset.mem_insert_of_mem hx)
                have := Finset.card_le_card hsub
                omega
              have hgmid : ∀ key,
                  (getv (setv c.index k1 (old + v)) key).getD 0
                    = g key + if key = k1 then v else 0 := by
                intro key
                by_cases hk : key = k1
                · subst hk
                  rw [getv_setv_self, if_pos rfl]
                  simp only [Option.getD_some]
                  omega
                · rw [getv_setv_ne _ _ _ _ hk, if_neg hk, hg key]
                  omega
              obtain ⟨ho2, hg2⟩ := ih
                { c with length := c.length + v,
                         index := setv c.index k1 (old + v) } c2
                (fun key => g key + if key = k1 then v else 0)
                (nodup_setv _ _ _ hnd) hoff hgmid hcard2 h
              refine ⟨ho2, ?_⟩
              intro key
              rw [hg2 key, entriesSum]
              omega
          | none =>
              rw [hgv] at hup
              have hnotmem : k1 ∉ c.index.map Prod.fst :=
                not_mem_of_getv_none c.index k1 hgv
              have hroom : (c.index.length : Int) < c.size := by
                have h1 : (c.index.map Prod.fst).toFinset.card
                    = c.index.length := by
                  rw [List.toFinset_card_of_nodup hnd, List.length_map]
                have h2 : insert k1 (c.index.map Prod.fst).toFinset
                    ⊆ (c.index.map Prod.fst).toFinset
                    ∪ (((k1, v) :: rest).map Prod.fst).toFinset := by
                  intro x hx
                  rcases Finset.mem_insert.mp hx with rfl | hx
                  · simp only [List.map_cons, List.toFinset_cons]
                    exact Finset.mem_union_right _ (Finset.mem_insert_self ..)
                  · exact Finset.mem_union_left _ hx
                have h3 : (insert k1 (c.index.map Prod.fst).toFinset).card
                    = (c.index.map Prod.fst).toFinset.card + 1 :=
                  Finset.card_insert_of_not_mem
                    (fun hm => hnotmem (List.mem_toFinset.mp hm))
                have h4 := Finset.card_le_card h2
                omega
              rw [if_pos hroom] at hup
              injection hup with hup
              subst hup
              have hg1 : g k1 = 0 := by
                have := hg k1
                rw [hgv] at this
                simpa using this.symm
              have hcard2 : ((((setv c.index k1 v).map Prod.fst).toFinset
                  ∪ (rest.map Prod.fst).toFinset).card : Int) ≤ c.size := by
                rw [map_fst_setv_absent c.index k1 _ hgv]
                have hsub : (c.index.map Prod.fst
                    ++ [k1]).toFinset ∪ (rest.map Prod.fst).toFinset
                    ⊆ (c.index.map Prod.fst).toFinset
                    ∪ (((k1, v) :: rest).map Prod.fst).toFinset := by
                  intro x hx
                  simp only [List.map_cons, List.toFinset_cons,
                    List.toFinset_append, List.toFinset_nil] at hx ⊢
                  rcases Finset.mem_union.mp hx with hx | hx
                  · rcases Finset.mem_union.mp hx with hx | hx
                    · exact Finset.mem_union_left _ hx
                    · simp only [insert_emptyc_eq, Finset.mem_singleton] at hx
                      subst hx
                      exact Finset.mem_union_right _ (Finset.mem_insert_self ..)
                  · exact Finset.mem_union_right _ (Finset.mem_insert_of_mem hx)
                have := Finset.card_le_card hsub
                omega
              have hgmid : ∀ key,
                  (getv (setv c.index k1 v) key).getD 0
                    = g key + if key = k1 then v else 0 := by
                intro key
                by_cases hk : key = k1
                · subst hk
                  rw [getv_setv_self, if_pos rfl]
                  simp only [Option.getD_some]
                  omega
                · rw [getv_setv_ne _ _ _ _ hk, if_neg hk, hg key]
                  omega
              obtain ⟨ho2, hg2⟩ := ih
                { c with length := c.length + v,
                         index := setv c.index k1 v } c2
                (fun key => g key + if key = k1 then v else 0)
                (nodup_setv _ _ _ hnd) hoff hgmid hcard2 h
              refine ⟨ho2, ?_⟩
              intro key
              rw [hg2 key, entriesSum]
              omega

/-- C7: a run of updates from a fresh counter whose keys span at most
`capacity` distinct values never evicts (success of the run with empty
sampling oracles certifies this: the constructor forces `sample ≥ 1`,
so `_decrement` would reject the empty sample and fail the run), keeps
the offset at zero, and reports the exact summed weight as both bounds
of `frequency` for every key. -/
theorem exactness_no_eviction (k : Int) (s o : Option Int)
    (c0 c2 : Counter K) (us : List (K × Int))
    (hinit : Counter.init k s o = Except.ok c0)
    (hkeys : (((us.map Prod.fst).toFinset.card : Nat) : Int) ≤ k)
    (hrun : foldUpdates c0 us [] = Except.ok c2) :
    c2.offset = 0 ∧
    ∀ key, frequency c2 key = (entriesSum us key, entriesSum us key) := by
  obtain ⟨hWF, hlen, hoff, hidx, hsize⟩ := init_ok k s o c0 hinit
  obtain ⟨ho2, hg2⟩ := run_exact us c0 c2 (fun _ => 0)
    (by rw [hidx]; simp) hoff
    (by intro key; rw [hidx]; simp [getv])
    (by rw [hidx, hsize]; simpa using hkeys) hrun
  refine ⟨ho2, ?_⟩
  intro key
  have h2 : (getv c2.index key).getD 0 = entriesSum us key := by
    have := hg2 key
    omega
  dsimp only [frequency]
  rw [h2, ho2, add_zero]

/-- Witness for C7 on a two-key run at capacity 2. -/
theorem exactness_no_eviction_witness :
    (⟨2, 2, 1, 30, 0, [(5, 10), (6, 20)]⟩ : Counter Nat).offset = 0 ∧
    frequency (⟨2, 2, 1, 30, 0, [(5, 10), (6, 20)]⟩ : Counter Nat) 5
      = (entriesSum [(5, 10), (6, 20)] 5, entriesSum [(5, 10), (6, 20)] 5) :=
  ⟨(exactness_no_eviction 2 none none ⟨2, 2, 1, 0, 0, []⟩
      ⟨2, 2, 1, 30, 0, [(5, 10), (6, 20)]⟩ [(5, 10), (6, 20)]
      (by rfl) (by decide) (by rfl)).1,
    (exactness_no_eviction 2 none none ⟨2, 2, 1, 0, 0, []⟩
      ⟨2, 2, 1, 30, 0, [(5, 10), (6, 20)]⟩ [(5, 10), (6, 20)]
      (by rfl) (by decide) (by rfl)).2 5⟩

/-- C8: construction defaults `sampleSize = min(capacity, 1024)` and
`order = sampleSize / 2` (floor division) when unspecified, fails with a
range error exactly when `0 ≤ sampleSize ≤ capacity` or
`0 ≤ order < sampleSize` is violated, and in particular always fails
for `capacity ≤ 0`; no counter is produced on failure. -/
theorem init_spec (k : Int) (s o : Option Int) :
    (Counter.init (K := K) k s o
      = Counter.init (K := K) k (some (s.getD (min k 1024)))
          (some (o.getD (Int.fdiv (s.getD (min k 1024)) 2)))) ∧
    ((∃ c : Counter K, Counter.init k s o = Except.ok c) ↔
      (0 ≤ s.getD (min k 1024) ∧ s.getD (min k 1024) ≤ k ∧
       0 ≤ o.getD (Int.fdiv (s.getD (min k 1024)) 2) ∧
       o.getD (Int.fdiv (s.getD (min k 1024)) 2) < s.getD (min k 1024))) ∧
    (k ≤ 0 → ∀ c : Counter K, Counter.init k s o ≠ Except.ok c) := by
  have hiff : (∃ c : Counter K, Counter.init k s o = Except.ok c) ↔
      (0 ≤ s.getD (min k 1024) ∧ s.getD (min k 1024) ≤ k ∧
       0 ≤ o.getD (Int.fdiv (s.getD (min k 1024)) 2) ∧
       o.getD (Int.fdiv (s.getD (min k 1024)) 2) < s.getD (min k 1024)) := by
    constructor
    · rintro ⟨c, hc⟩
      simp only [Counter.init] at hc
      split at hc
      · exact Except.noConfusion hc
      · split at hc
        · exact Except.noConfusion hc
        · rename_i h1 h2
          push_neg at h1 h2
          exact ⟨h1.1, h1.2, h2.1, h2.2⟩
    · rintro ⟨a1, a2, a3, a4⟩
      refine ⟨⟨k, s.getD (min k 1024),
        o.getD (Int.fdiv (s.getD (min k 1024)) 2), 0, 0, []⟩, ?_⟩
      simp only [Counter.init]
      rw [if_neg (by omega), if_neg (by omega)]
  refine ⟨rfl, hiff, ?_⟩
  intro hk c hc
  have := hiff.mp ⟨c, hc⟩
  omega

/-- Witness for C8: constructing with capacity 0 fails. -/
theorem init_spec_witness :
    Counter.init (K := Nat) 0 none none ≠ Except.ok ⟨0, 0, 0, 0, 0, []⟩ :=
  (init_spec 0 none none).2.2 (by decide) ⟨0, 0, 0, 0, 0, []⟩

theorem setv_absent (l : List (K × Int)) (key : K) (val : Int)
    (h : key ∉ l.map Prod.fst) : setv l key val = l ++ [(key, val)] := by
  induction l with
  | nil => simp [setv]
  | cons p rest ih =>
      obtain ⟨k1, v⟩ := p
      simp only [List.map_cons, List.mem_cons] at h
      push_neg at h
      have h1 : ¬ k1 = key := fun h2 => h.1 h2.symm
      simp [setv, h1, ih h.2]

theorem dictUpdate_eq_append (l : List (K × Int)) :
    ∀ acc : List (K × Int), ((acc ++ l).map Prod.fst).Nodup →
      dictUpdate acc l = acc ++ l := by
  induction l with
  | nil =>
      intro acc h
      rw [dictUpdate, List.append_nil]
  | cons p rest ih =>
      obtain ⟨k1, v⟩ := p
      intro acc h
      have hk1 : k1 ∉ acc.map Prod.fst := by
        simp only [List.map_append, List.map_cons] at h
        obtain ⟨_, _, hdisj⟩ := List.nodup_append.mp h
        intro hmem
        exact hdisj hmem (List.mem_cons_self ..)
      rw [dictUpdate, setv_absent acc k1 v hk1,
        ih (acc ++ [(k1, v)]) (by rw [← List.append_cons]; exact h),
        ← List.append_cons]

/-- Under well-formedness, `Counter.copy` rebuilds a counter that is equal
to the source, field for field (the constructor re-validates, the scalars
are copied, and re-inserting every dict entry into the fresh dict
reproduces the table). -/
theorem copy_eq (c : Counter K) (hWF : WF c) : copy c = Except.ok c := by
  obtain ⟨w1, w2, w3, w4, w5, w6, w7⟩ := hWF
  rw [copy]
  simp only [Counter.init, Option.getD_some]
  rw [if_neg (by omega), if_neg (by omega)]
  dsimp only
  rw [dictUpdate_eq_append c.index [] (by simpa using w4)]
  rfl

/-- Default counter used for out-of-range reads of the counter store. -/
def cDefault : Counter K := ⟨0, 0, 0, 0, 0, []⟩

/-- Mutating operations of the counter interface, for the heap model of
`copy` independence. -/
inductive Op (K : Type) where
  | upd (key : K) (val : Int) (samp : List Int)
  | mrg (other : Counter K) (samps : List (List Int))
  | clr

/-- Run one mutating operation on a counter; a raised error leaves the
embedded state unchanged (errors raised by `update` occur before any
mutation, and what an interrupted `merge` leaves behind is irrelevant to
the independence statement). -/
def applyOp (c : Counter K) : Op K → Counter K
  | Op.upd key val samp =>
      match update c key val samp with
      | Except.ok c2 => c2
      | Except.error _ => c
  | Op.mrg other samps =>
      match merge c other samps with
      | Except.ok c2 => c2
      | Except.error _ => c
  | Op.clr => clear c

/-- Heap model: a store of counters addressed by position; run a sequence
of operations, every one of them targeting the counter at address `r`. -/
def applyOpsAt (σ : List (Counter K)) (r : Nat) : List (Op K) → List (Counter K)
  | [] => σ
  | op :: rest => applyOpsAt (σ.set r (applyOp (σ.getD r cDefault) op)) r rest

/-- Heap model of `Counter.copy`: the copy is a freshly allocated counter
(appended to the store), so its address differs from every existing one. -/
def copyAt (σ : List (Counter K)) (r : Nat) :
    Except String (List (Counter K) × Nat) :=
  match copy (σ.getD r cDefault) with
  | Except.error e => Except.error e
  | Except.ok c2 => Except.ok (σ ++ [c2], σ.length)

theorem getD_set_ne {α : Type} (σ : List α) (i r : Nat) (x d : α)
    (h : r ≠ i) : (σ.set i x).getD r d = σ.getD r d := by
  rcases Nat.lt_or_ge r σ.length with hr | hr
  · rw [List.getD_eq_getElem _ _ (by simpa using hr),
      List.getD_eq_getElem _ _ hr]
    exact List.getElem_set_ne (fun hh => h hh.symm) _
  · rw [List.getD_eq_default _ _ (by simpa using hr),
      List.getD_eq_default _ _ hr]

theorem applyOpsAt_frame (ops : List (Op K)) :
    ∀ (σ : List (Counter K)) (r2 r : Nat), r ≠ r2 →
      (applyOpsAt σ r2 ops).getD r cDefault = σ.getD r cDefault := by
  induction ops with
  | nil => intro σ r2 r h; rfl
  | cons op rest ih =>
      intro σ r2 r h
      rw [applyOpsAt, ih _ r2 r h]
      exact getD_set_ne σ r2 r _ _ h

/-- C9: `copy` of a well-formed counter succeeds and produces a counter
with identical scalar state and an equal table, stored independently: the
copy lives at a fresh address, and running any sequence of mutating
operations (`update`, `merge`, `clear`) against the copy leaves the
original counter's entire state (length, offset, table) unchanged. -/
theorem copy_independent (σ : List (Counter K)) (r : Nat)
    (hr : r < σ.length) (hWF : WF (σ.getD r cDefault)) :
    ∃ σ2 r2, copyAt σ r = Except.ok (σ2, r2) ∧ r2 ≠ r ∧
      σ2.getD r2 cDefault = σ.getD r cDefault ∧
      ∀ ops : List (Op K),
        (applyOpsAt σ2 r2 ops).getD r cDefault = σ.getD r cDefault := by
  refine ⟨σ ++ [σ.getD r cDefault], σ.length, ?_, by omega, ?_, ?_⟩
  · rw [copyAt, copy_eq _ hWF]
  · rw [List.getD_eq_getElem _ _ (by simp)]
    exact List.getElem_concat_length σ _ σ.length rfl _
  · intro ops
    rw [applyOpsAt_frame ops _ _ r (by omega)]
    exact List.getD_append σ _ cDefault r hr

/-- Witness for C9 on a concrete one-key counter. -/
theorem copy_independent_witness :
    ∃ σ2 r2,
      copyAt [(⟨1, 1, 0, 1, 0, [(7, 1)]⟩ : Counter Nat)] 0
        = Except.ok (σ2, r2) ∧ r2 ≠ 0 ∧
      σ2.getD r2 cDefault
        = [(⟨1, 1, 0, 1, 0, [(7, 1)]⟩ : Counter Nat)].getD 0 cDefault ∧
      ∀ ops : List (Op Nat),
        (applyOpsAt σ2 r2 ops).getD 0 cDefault
          = [(⟨1, 1, 0, 1, 0, [(7, 1)]⟩ : Counter Nat)].getD 0 cDefault :=
  copy_independent [⟨1, 1, 0, 1, 0, [(7, 1)]⟩] 0 (by decide)
    (by refine ⟨?_, ?_, ?_, ?_, ?_, ?_, ?_⟩ <;> decide)

end Frequent
